import Mathlib

/-!
Verification development for the matrix-sticker plugin's token-resolution and
message-reconstruction engine.

Texts are modelled as lists of Unicode code points (`List Nat`), mirroring
Python strings as sequences of code points.  The two shortcode regexes

  STRICT  : (?<!\\)(?<![A-Za-z0-9_]):([A-Za-z0-9_+\-.]+):
  RELAXED : (?<!\\)(?<![A-Za-z0-9_]):([A-Za-z0-9_+\-.]+):?(?=$|[^A-Za-z0-9_+\-.])

are embedded as explicit left-to-right, non-overlapping scanners producing the
ordered list of matches `(start, group1, end)`, exactly as Python's
`re.finditer` does on these patterns (a failed attempt advances one position;
a successful match resumes scanning at its end).
-/

set_option maxHeartbeats 1000000

namespace MS

/-- Code points of a string literal (Python strings are code-point sequences). -/
def codes (s : String) : List Nat := s.data.map Char.toNat

/-- `[A-Za-z0-9_]`, the word-character class used in the left lookbehind. -/
def isWordCode (c : Nat) : Bool :=
  (65 ≤ c && c ≤ 90) || (97 ≤ c && c ≤ 122) || (48 ≤ c && c ≤ 57) || c = 95

/-- `[A-Za-z0-9_+\-.]`, the token-character class of group 1. -/
def isTokenCode (c : Nat) : Bool :=
  isWordCode c || c = 43 || c = 45 || c = 46

/-- Both lookbehinds `(?<!\\)(?<![A-Za-z0-9_])` evaluated at a position whose
preceding character is `prev` (`none` at the start of the text). -/
def lookbehindOk : Option Nat → Bool
  | none => true
  | some p => !isWordCode p && p ≠ 92

/-- Attempt of the strict pattern tail `([A-Za-z0-9_+\-.]+):` at the position
just after an opening colon: returns the group-1 capture and the remainder of
the text after the whole match. -/
def tryStrict (rest : List Nat) : Option (List Nat × List Nat) :=
  if (rest.takeWhile isTokenCode).isEmpty then none
  else
    match rest.dropWhile isTokenCode with
    | c :: r => if c = 58 then some (rest.takeWhile isTokenCode, r) else none
    | [] => none

/-- Attempt of the relaxed pattern tail `([A-Za-z0-9_+\-.]+):?(?=$|[^A-Za-z0-9_+\-.])`
just after an opening colon: returns the capture, whether the optional closing
colon was consumed, and the remainder after the match. -/
def tryRelaxed (rest : List Nat) : Option (List Nat × Bool × List Nat) :=
  if (rest.takeWhile isTokenCode).isEmpty then none
  else
    match rest.dropWhile isTokenCode with
    | c :: d :: r =>
        if c = 58 then
          if isTokenCode d then some (rest.takeWhile isTokenCode, false, c :: d :: r)
          else some (rest.takeWhile isTokenCode, true, d :: r)
        else some (rest.takeWhile isTokenCode, false, c :: d :: r)
    | c :: [] =>
        if c = 58 then some (rest.takeWhile isTokenCode, true, [])
        else some (rest.takeWhile isTokenCode, false, c :: [])
    | [] => some (rest.takeWhile isTokenCode, false, [])

theorem length_dropWhile_le (p : Nat → Bool) (l : List Nat) :
    (l.dropWhile p).length ≤ l.length := by
  induction l with
  | nil => simp [List.dropWhile]
  | cons a l ih =>
      by_cases h : p a
      · simp [List.dropWhile, h]; omega
      · simp [List.dropWhile, h]

theorem tryStrict_length {rest cap r} (h : tryStrict rest = some (cap, r)) :
    r.length < rest.length + 1 := by
  have hd := length_dropWhile_le isTokenCode rest
  unfold tryStrict at h
  split at h
  · cases h
  · split at h
    · rename_i heq
      split at h
      · cases h
        rw [heq] at hd
        simp at hd
        omega
      · cases h
    · cases h

theorem tryRelaxed_length {rest cap tc r} (h : tryRelaxed rest = some (cap, tc, r)) :
    r.length < rest.length + 1 := by
  have hd := length_dropWhile_le isTokenCode rest
  unfold tryRelaxed at h
  split at h
  · cases h
  · split at h
    · rename_i heq
      rw [heq] at hd
      simp at hd
      split at h
      · split at h <;> (cases h; simp; omega)
      · cases h
        simp
        omega
    · rename_i heq
      rw [heq] at hd
      simp at hd
      split at h <;> cases h
      · simp
      · simp
        omega
    · cases h
      simp

/-- The strict scanner: `finditer` of the strict pattern over the text,
carrying the previously consumed code point and the absolute index `i`.
The fuel argument only drives the recursion; one unit is spent per scanner
step and every step consumes at least one character, so any fuel of at least
the text length computes the full scan (see `strictFindAux_congr`). -/
def strictFindAux : Nat → Option Nat → Nat → List Nat → List (Nat × List Nat × Nat)
  | _, _, _, [] => []
  | 0, _, _, _ :: _ => []
  | fuel + 1, prev, i, c :: rest =>
    if c = 58 ∧ lookbehindOk prev then
      match tryStrict rest with
      | some (cap, r) =>
          (i, cap, i + cap.length + 2) ::
            strictFindAux fuel (some 58) (i + cap.length + 2) r
      | none => strictFindAux fuel (some c) (i + 1) rest
    else strictFindAux fuel (some c) (i + 1) rest

/-- The relaxed scanner: `finditer` of the relaxed pattern over the text. -/
def relaxedFindAux : Nat → Option Nat → Nat → List Nat → List (Nat × List Nat × Nat)
  | _, _, _, [] => []
  | 0, _, _, _ :: _ => []
  | fuel + 1, prev, i, c :: rest =>
    if c = 58 ∧ lookbehindOk prev then
      match tryRelaxed rest with
      | some (cap, tc, r) =>
          (i, cap, i + 1 + cap.length + (if tc then 1 else 0)) ::
            relaxedFindAux fuel (if tc then some 58 else some (cap.getLastD 0))
              (i + 1 + cap.length + (if tc then 1 else 0)) r
      | none => relaxedFindAux fuel (some c) (i + 1) rest
    else relaxedFindAux fuel (some c) (i + 1) rest

def strictFind (prev : Option Nat) (i : Nat) (l : List Nat) :
    List (Nat × List Nat × Nat) :=
  strictFindAux l.length prev i l

def relaxedFind (prev : Option Nat) (i : Nat) (l : List Nat) :
    List (Nat × List Nat × Nat) :=
  relaxedFindAux l.length prev i l

theorem strictFindAux_nil (f : Nat) (prev : Option Nat) (i : Nat) :
    strictFindAux f prev i [] = [] := by
  cases f <;> rfl

theorem relaxedFindAux_nil (f : Nat) (prev : Option Nat) (i : Nat) :
    relaxedFindAux f prev i [] = [] := by
  cases f <;> rfl

theorem strictFindAux_congr :
    ∀ (f₁ : Nat) (l : List Nat), l.length ≤ f₁ → ∀ (f₂ : Nat), l.length ≤ f₂ →
      ∀ prev i, strictFindAux f₁ prev i l = strictFindAux f₂ prev i l := by
  intro f₁
  induction f₁ with
  | zero =>
      intro l hl f₂ _ prev i
      have : l = [] := List.length_eq_zero.mp (Nat.le_zero.mp hl)
      subst this
      rw [strictFindAux_nil, strictFindAux_nil]
  | succ f ih =>
      intro l hl f₂ h₂ prev i
      cases l with
      | nil => rw [strictFindAux_nil, strictFindAux_nil]
      | cons c rest =>
          cases f₂ with
          | zero => simp at h₂
          | succ g =>
              simp only [List.length_cons] at hl h₂
              rw [strictFindAux, strictFindAux]
              by_cases hc : c = 58 ∧ lookbehindOk prev = true
              · rw [if_pos hc, if_pos hc]
                cases hts : tryStrict rest with
                | some p =>
                    obtain ⟨cap, r⟩ := p
                    have hr : r.length ≤ rest.length := by
                      have := tryStrict_length hts
                      omega
                    simp only
                    rw [ih r (by omega) g (by omega)]
                | none =>
                    simp only
                    rw [ih rest (by omega) g (by omega)]
              · rw [if_neg hc, if_neg hc, ih rest (by omega) g (by omega)]

theorem relaxedFindAux_congr :
    ∀ (f₁ : Nat) (l : List Nat), l.length ≤ f₁ → ∀ (f₂ : Nat), l.length ≤ f₂ →
      ∀ prev i, relaxedFindAux f₁ prev i l = relaxedFindAux f₂ prev i l := by
  intro f₁
  induction f₁ with
  | zero =>
      intro l hl f₂ _ prev i
      have : l = [] := List.length_eq_zero.mp (Nat.le_zero.mp hl)
      subst this
      rw [relaxedFindAux_nil, relaxedFindAux_nil]
  | succ f ih =>
      intro l hl f₂ h₂ prev i
      cases l with
      | nil => rw [relaxedFindAux_nil, relaxedFindAux_nil]
      | cons c rest =>
          cases f₂ with
          | zero => simp at h₂
          | succ g =>
              simp only [List.length_cons] at hl h₂
              rw [relaxedFindAux, relaxedFindAux]
              by_cases hc : c = 58 ∧ lookbehindOk prev = true
              · rw [if_pos hc, if_pos hc]
                cases htr : tryRelaxed rest with
                | some p =>
                    obtain ⟨cap, tc, r⟩ := p
                    have hr : r.length ≤ rest.length := by
                      have := tryRelaxed_length htr
                      omega
                    simp only
                    rw [ih r (by omega) g (by omega)]
                | none =>
                    simp only
                    rw [ih rest (by omega) g (by omega)]
              · rw [if_neg hc, if_neg hc, ih rest (by omega) g (by omega)]

theorem strictFind_nil (prev : Option Nat) (i : Nat) : strictFind prev i [] = [] := rfl

theorem relaxedFind_nil (prev : Option Nat) (i : Nat) : relaxedFind prev i [] = [] := rfl

theorem strictFind_skip {prev : Option Nat} {c : Nat} (i : Nat) (rest : List Nat)
    (h : ¬(c = 58 ∧ lookbehindOk prev = true)) :
    strictFind prev i (c :: rest) = strictFind (some c) (i + 1) rest := by
  unfold strictFind
  simp only [List.length_cons]
  rw [strictFindAux, if_neg h]

theorem relaxedFind_skip {prev : Option Nat} {c : Nat} (i : Nat) (rest : List Nat)
    (h : ¬(c = 58 ∧ lookbehindOk prev = true)) :
    relaxedFind prev i (c :: rest) = relaxedFind (some c) (i + 1) rest := by
  unfold relaxedFind
  simp only [List.length_cons]
  rw [relaxedFindAux, if_neg h]

theorem strictFind_fail {prev : Option Nat} {rest : List Nat} (i : Nat)
    (h1 : lookbehindOk prev = true) (h2 : tryStrict rest = none) :
    strictFind prev i (58 :: rest) = strictFind (some 58) (i + 1) rest := by
  unfold strictFind
  simp only [List.length_cons]
  rw [strictFindAux, if_pos ⟨rfl, h1⟩, h2]

theorem relaxedFind_fail {prev : Option Nat} {rest : List Nat} (i : Nat)
    (h1 : lookbehindOk prev = true) (h2 : tryRelaxed rest = none) :
    relaxedFind prev i (58 :: rest) = relaxedFind (some 58) (i + 1) rest := by
  unfold relaxedFind
  simp only [List.length_cons]
  rw [relaxedFindAux, if_pos ⟨rfl, h1⟩, h2]

theorem strictFind_match {prev : Option Nat} {rest cap r : List Nat} (i : Nat)
    (h1 : lookbehindOk prev = true) (h2 : tryStrict rest = some (cap, r)) :
    strictFind prev i (58 :: rest) =
      (i, cap, i + cap.length + 2) :: strictFind (some 58) (i + cap.length + 2) r := by
  unfold strictFind
  simp only [List.length_cons]
  rw [strictFindAux, if_pos ⟨rfl, h1⟩, h2]
  have hr : r.length ≤ rest.length := by
    have := tryStrict_length h2
    omega
  dsimp only
  rw [strictFindAux_congr rest.length r hr r.length le_rfl]

theorem relaxedFind_match {prev : Option Nat} {rest cap r : List Nat} {tc : Bool} (i : Nat)
    (h1 : lookbehindOk prev = true) (h2 : tryRelaxed rest = some (cap, tc, r)) :
    relaxedFind prev i (58 :: rest) =
      (i, cap, i + 1 + cap.length + (if tc then 1 else 0)) ::
        relaxedFind (if tc then some 58 else some (cap.getLastD 0))
          (i + 1 + cap.length + (if tc then 1 else 0)) r := by
  unfold relaxedFind
  simp only [List.length_cons]
  rw [relaxedFindAux, if_pos ⟨rfl, h1⟩, h2]
  have hr : r.length ≤ rest.length := by
    have := tryRelaxed_length h2
    omega
  dsimp only
  rw [relaxedFindAux_congr rest.length r hr r.length le_rfl]

theorem relaxedFind_match_noColon {prev : Option Nat} {rest cap r : List Nat} (i : Nat)
    (h1 : lookbehindOk prev = true) (h2 : tryRelaxed rest = some (cap, false, r)) :
    relaxedFind prev i (58 :: rest) =
      (i, cap, i + 1 + cap.length) ::
        relaxedFind (some (cap.getLastD 0)) (i + 1 + cap.length) r := by
  rw [relaxedFind_match i h1 h2]
  simp

theorem relaxedFind_match_colon {prev : Option Nat} {rest cap r : List Nat} (i : Nat)
    (h1 : lookbehindOk prev = true) (h2 : tryRelaxed rest = some (cap, true, r)) :
    relaxedFind prev i (58 :: rest) =
      (i, cap, i + 1 + cap.length + 1) ::
        relaxedFind (some 58) (i + 1 + cap.length + 1) r := by
  rw [relaxedFind_match i h1 h2]
  simp

/-- The previous-character tracker after consuming `xs` starting from `p`. -/
def prevAfter (p : Option Nat) (xs : List Nat) : Option Nat :=
  match xs with
  | [] => p
  | _ => some (xs.getLastD 0)

theorem prevAfter_cons (p : Option Nat) (a : Nat) (xs : List Nat) :
    prevAfter p (a :: xs) = prevAfter (some a) xs := by
  cases xs with
  | nil => rfl
  | cons b ys => simp [prevAfter, List.getLastD_cons]

/-- The strict scanner walks through a colon-free run without matching. -/
theorem strictFind_skipRun {xs : List Nat} (p : Option Nat) (i : Nat) (ys : List Nat)
    (h : ∀ x ∈ xs, x ≠ 58) :
    strictFind p i (xs ++ ys) = strictFind (prevAfter p xs) (i + xs.length) ys := by
  induction xs generalizing p i with
  | nil => simp [prevAfter]
  | cons a xs ih =>
      have ha : a ≠ 58 := h a (by simp)
      have hlen : i + 1 + xs.length = i + (a :: xs).length := by
        simp
        omega
      rw [List.cons_append, strictFind_skip _ _ (by simp [ha]),
        ih (some a) (i + 1) (fun x hx => h x (by simp [hx])), prevAfter_cons, hlen]

theorem lookbehindOk_of_word {p : Nat} (h : isWordCode p = true) :
    lookbehindOk (some p) = false := by
  simp [lookbehindOk, h]

theorem isTokenCode_ne_colon {c : Nat} (h : isTokenCode c = true) : c ≠ 58 := by
  intro hc
  subst hc
  simp [isTokenCode, isWordCode] at h

theorem lookbehindOk_of_token_not_word {c : Nat} (ht : isTokenCode c = true)
    (hw : isWordCode c = false) : lookbehindOk (some c) = true := by
  have : c = 43 ∨ c = 45 ∨ c = 46 := by
    simp [isTokenCode, hw] at ht
    tauto
  rcases this with rfl | rfl | rfl <;> simp [lookbehindOk, isWordCode]

theorem dropWhile_head_false {p : Nat → Bool} {l : List Nat} {e : Nat} {u : List Nat}
    (h : l.dropWhile p = e :: u) : p e = false := by
  induction l with
  | nil => simp [List.dropWhile] at h
  | cons a l ih =>
      rw [List.dropWhile_cons] at h
      by_cases hp : p a
      · rw [if_pos hp] at h
        exact ih h
      · rw [if_neg hp] at h
        cases h
        simpa using hp

theorem getLastD_mem {l : List Nat} (h : l ≠ []) (d : Nat) : l.getLastD d ∈ l := by
  induction l generalizing d with
  | nil => simp at h
  | cons a l ih =>
      cases l with
      | nil => simp
      | cons b m =>
          rw [List.getLastD_cons]
          exact List.mem_cons_of_mem a (ih (by simp) a)

/-- Group-1 captures of a match list. -/
def captures (ms : List (Nat × List Nat × Nat)) : List (List Nat) :=
  ms.map (fun m => m.2.1)

/-- All strict-pattern captures of a text. -/
def strictCaptures (text : List Nat) : List (List Nat) :=
  captures (strictFind none 0 text)

/-- All relaxed-pattern captures of a text. -/
def relaxedCaptures (text : List Nat) : List (List Nat) :=
  captures (relaxedFind none 0 text)

theorem captures_cons (m : Nat × List Nat × Nat) (ms : List (Nat × List Nat × Nat)) :
    captures (m :: ms) = m.2.1 :: captures ms := rfl

/-- Core simulation: every capture found by the strict scanner on a suffix is
also found by the relaxed scanner started at the same suffix with the same
preceding character (positions may differ). -/
theorem captures_subset_aux :
    ∀ n, ∀ l : List Nat, l.length ≤ n → ∀ prev i j x,
      x ∈ captures (strictFind prev i l) → x ∈ captures (relaxedFind prev j l) := by
  intro n
  induction n with
  | zero =>
      intro l hl prev i j x hx
      have hnil : l = [] := List.length_eq_zero.mp (Nat.le_zero.mp hl)
      subst hnil
      rw [strictFind_nil] at hx
      simp [captures] at hx
  | succ n ih =>
      intro l hl prev i j x hx
      cases l with
      | nil =>
          rw [strictFind_nil] at hx
          simp [captures] at hx
      | cons c rest =>
          have hrlen : rest.length ≤ n := by
            simp at hl
            omega
          by_cases hcl : c = 58 ∧ lookbehindOk prev = true
          · obtain ⟨rfl, hlb⟩ := hcl
            cases htw : rest.takeWhile isTokenCode with
            | nil =>
                have hts : tryStrict rest = none := by
                  unfold tryStrict
                  rw [htw]
                  simp
                have htr : tryRelaxed rest = none := by
                  unfold tryRelaxed
                  rw [htw]
                  simp
                rw [strictFind_fail _ hlb hts] at hx
                rw [relaxedFind_fail _ hlb htr]
                exact ih rest hrlen _ _ _ x hx
            | cons a cp =>
                have htok : ∀ y ∈ a :: cp, isTokenCode y = true := by
                  intro y hy
                  rw [← htw] at hy
                  exact List.mem_takeWhile_imp hy
                have hne58 : ∀ y ∈ a :: cp, y ≠ 58 :=
                  fun y hy => isTokenCode_ne_colon (htok y hy)
                have hsplit : (a :: cp) ++ rest.dropWhile isTokenCode = rest := by
                  rw [← htw]
                  exact List.takeWhile_append_dropWhile isTokenCode rest
                have hLtok : isTokenCode ((a :: cp).getLastD 0) = true :=
                  htok _ (getLastD_mem (by simp) 0)
                have hlsp : (a :: cp).length + (rest.dropWhile isTokenCode).length
                    = rest.length := by
                  have h0 := congrArg List.length hsplit
                  simp [List.length_append] at h0
                  simp only [List.length_cons]
                  omega
                cases hdw : rest.dropWhile isTokenCode with
                | nil =>
                    have hts : tryStrict rest = none := by
                      unfold tryStrict
                      rw [htw, hdw]
                      simp
                    rw [strictFind_fail _ hlb hts] at hx
                    have hrest : rest = a :: cp := by
                      rw [hdw] at hsplit
                      simpa using hsplit.symm
                    have hrw := strictFind_skipRun (some 58) (i + 1) ([] : List Nat) hne58
                    rw [List.append_nil, strictFind_nil] at hrw
                    rw [hrest, hrw] at hx
                    simp [captures] at hx
                | cons e dw' =>
                    rw [hdw] at hlsp
                    by_cases he : e = 58
                    · subst he
                      have hts : tryStrict rest = some (a :: cp, dw') := by
                        unfold tryStrict
                        rw [htw, hdw]
                        simp
                      rw [strictFind_match _ hlb hts, captures_cons] at hx
                      rcases List.mem_cons.mp hx with hxe | hx
                      · -- the head capture: emitted by the relaxed scanner as well,
                        -- in each of its branches below
                        cases dw' with
                        | nil =>
                            have htr : tryRelaxed rest = some (a :: cp, true, []) := by
                              unfold tryRelaxed
                              rw [htw, hdw]
                              simp
                            rw [relaxedFind_match_colon _ hlb htr, captures_cons]
                            exact List.mem_cons.mpr (Or.inl hxe)
                        | cons d t =>
                            by_cases hd : isTokenCode d = true
                            · have htr : tryRelaxed rest
                                  = some (a :: cp, false, 58 :: d :: t) := by
                                unfold tryRelaxed
                                rw [htw, hdw]
                                simp [hd]
                              rw [relaxedFind_match_noColon _ hlb htr, captures_cons]
                              exact List.mem_cons.mpr (Or.inl hxe)
                            · have htr : tryRelaxed rest = some (a :: cp, true, d :: t) := by
                                unfold tryRelaxed
                                rw [htw, hdw]
                                simp [hd]
                              rw [relaxedFind_match_colon _ hlb htr, captures_cons]
                              exact List.mem_cons.mpr (Or.inl hxe)
                      · -- a capture of the strict continuation on dw'
                        cases dw' with
                        | nil =>
                            rw [strictFind_nil] at hx
                            simp [captures] at hx
                        | cons d t =>
                            by_cases hd : isTokenCode d = true
                            · -- relaxed ends before the closing colon; strict continues
                              -- after it: the two scanners diverge here
                              have htr : tryRelaxed rest
                                  = some (a :: cp, false, 58 :: d :: t) := by
                                unfold tryRelaxed
                                rw [htw, hdw]
                                simp [hd]
                              rw [relaxedFind_match_noColon _ hlb htr, captures_cons]
                              refine List.mem_cons.mpr (Or.inr ?_)
                              by_cases hLw : isWordCode ((a :: cp).getLastD 0) = true
                              · -- the relaxed lookbehind rejects the colon; it skips it
                                have hnc : ¬((58 : Nat) = 58 ∧
                                    lookbehindOk (some ((a :: cp).getLastD 0)) = true) := by
                                  intro hcon
                                  have h2 := hcon.2
                                  rw [lookbehindOk_of_word hLw] at h2
                                  exact Bool.noConfusion h2
                                rw [relaxedFind_skip _ _ hnc]
                                have hlen1 : (d :: t).length ≤ n := by
                                  simp at hlsp hl ⊢
                                  omega
                                exact ih (d :: t) hlen1 _ _ _ x hx
                              · -- the relaxed scanner matches again at the colon
                                have hLok : lookbehindOk
                                    (some ((a :: cp).getLastD 0)) = true :=
                                  lookbehindOk_of_token_not_word hLtok
                                    (by simpa using hLw)
                                have htw2 : (d :: t).takeWhile isTokenCode
                                    = d :: t.takeWhile isTokenCode := by
                                  simp [hd]
                                have htok2 : ∀ y ∈ d :: t.takeWhile isTokenCode,
                                    isTokenCode y = true := by
                                  intro y hy
                                  rw [← htw2] at hy
                                  exact List.mem_takeWhile_imp hy
                                have hne58b : ∀ y ∈ d :: t.takeWhile isTokenCode, y ≠ 58 :=
                                  fun y hy => isTokenCode_ne_colon (htok2 y hy)
                                have hdw2 : (d :: t).dropWhile isTokenCode
                                    = t.dropWhile isTokenCode := by
                                  simp [hd]
                                have hsplit2 : (d :: t.takeWhile isTokenCode)
                                    ++ t.dropWhile isTokenCode = d :: t := by
                                  have h0 := List.takeWhile_append_dropWhile isTokenCode
                                    (d :: t)
                                  rw [htw2, hdw2] at h0
                                  exact h0
                                have hlsp2 : (d :: t.takeWhile isTokenCode).length
                                    + (t.dropWhile isTokenCode).length
                                    = (d :: t).length := by
                                  have h1 := congrArg List.length
                                    (List.takeWhile_append_dropWhile isTokenCode t)
                                  rw [List.length_append] at h1
                                  simp only [List.length_cons]
                                  omega
                                rw [← hsplit2, strictFind_skipRun _ _ _ hne58b] at hx
                                have hpA : prevAfter (some 58)
                                    (d :: t.takeWhile isTokenCode)
                                    = some ((d :: t.takeWhile isTokenCode).getLastD 0) := rfl
                                rw [hpA] at hx
                                have hLtok2 : isTokenCode
                                    ((d :: t.takeWhile isTokenCode).getLastD 0) = true :=
                                  htok2 _ (getLastD_mem (by simp) 0)
                                cases hdw2c : t.dropWhile isTokenCode with
                                | nil =>
                                    rw [hdw2c, strictFind_nil] at hx
                                    simp [captures] at hx
                                | cons f u =>
                                    rw [hdw2c] at hx hlsp2
                                    by_cases hf : f = 58
                                    · subst hf
                                      cases u with
                                      | nil =>
                                          -- strict is at a bare trailing colon: no match
                                          by_cases hok : lookbehindOk (some
                                              ((d :: t.takeWhile isTokenCode).getLastD 0))
                                              = true
                                          · rw [strictFind_fail _ hok
                                                (by unfold tryStrict; simp),
                                              strictFind_nil] at hx
                                            simp [captures] at hx
                                          · rw [strictFind_skip _ _
                                                (fun hcon => hok hcon.2),
                                              strictFind_nil] at hx
                                            simp [captures] at hx
                                      | cons g u' =>
                                          by_cases hg : isTokenCode g = true
                                          · have htr2 : tryRelaxed (d :: t)
                                                = some (d :: t.takeWhile isTokenCode,
                                                    false, 58 :: g :: u') := by
                                              unfold tryRelaxed
                                              rw [htw2, hdw2, hdw2c]
                                              simp [hg]
                                            rw [relaxedFind_match_noColon _ hLok htr2,
                                              captures_cons]
                                            refine List.mem_cons.mpr (Or.inr ?_)
                                            have hlen2 : (58 :: g :: u').length ≤ n := by
                                              simp at hlsp hlsp2 hl ⊢
                                              omega
                                            exact ih (58 :: g :: u') hlen2 _ _ _ x hx
                                          · have htr2 : tryRelaxed (d :: t)
                                                = some (d :: t.takeWhile isTokenCode,
                                                    true, g :: u') := by
                                              unfold tryRelaxed
                                              rw [htw2, hdw2, hdw2c]
                                              simp [hg]
                                            rw [relaxedFind_match_colon _ hLok htr2,
                                              captures_cons]
                                            refine List.mem_cons.mpr (Or.inr ?_)
                                            have hts2 : tryStrict (g :: u') = none := by
                                              unfold tryStrict
                                              rw [List.takeWhile_cons_of_neg
                                                (by simpa using hg)]
                                              simp
                                            have hlen3 : (g :: u').length ≤ n := by
                                              simp at hlsp hlsp2 hl ⊢
                                              omega
                                            by_cases hok : lookbehindOk (some
                                                ((d :: t.takeWhile isTokenCode).getLastD 0))
                                                = true
                                            · rw [strictFind_fail _ hok hts2] at hx
                                              exact ih (g :: u') hlen3 _ _ _ x hx
                                            · rw [strictFind_skip _ _
                                                (fun hcon => hok hcon.2)] at hx
                                              exact ih (g :: u') hlen3 _ _ _ x hx
                                    · -- the run is followed by a non-colon separator
                                      have htr2 : tryRelaxed (d :: t)
                                          = some (d :: t.takeWhile isTokenCode,
                                              false, f :: u) := by
                                        unfold tryRelaxed
                                        rw [htw2, hdw2, hdw2c]
                                        cases u <;> simp [hf]
                                      rw [relaxedFind_match_noColon _ hLok htr2,
                                        captures_cons]
                                      refine List.mem_cons.mpr (Or.inr ?_)
                                      have hlen4 : (f :: u).length ≤ n := by
                                        simp at hlsp hlsp2 hl ⊢
                                        omega
                                      exact ih (f :: u) hlen4 _ _ _ x hx
                            · -- the character after the closing colon is not a token
                              -- character: the relaxed scanner consumes the colon too
                              have htr : tryRelaxed rest = some (a :: cp, true, d :: t) := by
                                unfold tryRelaxed
                                rw [htw, hdw]
                                simp [hd]
                              rw [relaxedFind_match_colon _ hlb htr, captures_cons]
                              refine List.mem_cons.mpr (Or.inr ?_)
                              have hlen5 : (d :: t).length ≤ n := by
                                simp at hlsp hl ⊢
                                omega
                              exact ih (d :: t) hlen5 _ _ _ x hx
                    · -- no closing colon after the run: strict fails, relaxed matches
                      have hts : tryStrict rest = none := by
                        unfold tryStrict
                        rw [htw, hdw]
                        simp [he]
                      rw [strictFind_fail _ hlb hts] at hx
                      rw [← hsplit, hdw, strictFind_skipRun _ _ _ hne58] at hx
                      have hpA1 : prevAfter (some 58) (a :: cp)
                          = some ((a :: cp).getLastD 0) := rfl
                      rw [hpA1] at hx
                      have htr : tryRelaxed rest = some (a :: cp, false, e :: dw') := by
                        unfold tryRelaxed
                        rw [htw, hdw]
                        cases dw' <;> simp [he]
                      rw [relaxedFind_match_noColon _ hlb htr, captures_cons]
                      refine List.mem_cons.mpr (Or.inr ?_)
                      have hlen6 : (e :: dw').length ≤ n := by
                        simp at hlsp hl ⊢
                        omega
                      exact ih (e :: dw') hlen6 _ _ _ x hx
          · rw [strictFind_skip _ _ hcl] at hx
            rw [relaxedFind_skip _ _ hcl]
            exact ih rest hrlen _ _ _ x hx

theorem getLastD_irrel {l : List Nat} (h : l ≠ []) (d₁ d₂ : Nat) :
    l.getLastD d₁ = l.getLastD d₂ := by
  cases l with
  | nil => exact absurd rfl h
  | cons a m => rw [List.getLastD_cons, List.getLastD_cons]

theorem getLastD_append_cons (xs : List Nat) (y : Nat) (ys : List Nat) (d : Nat) :
    (xs ++ y :: ys).getLastD d = (y :: ys).getLastD d := by
  induction xs generalizing d with
  | nil => rfl
  | cons a xs ih =>
      rw [List.cons_append, List.getLastD_cons, ih a]
      exact getLastD_irrel (by simp) a d

/-- A successful strict tail attempt decomposes the remainder of the text. -/
theorem tryStrict_decomp {rest cap r : List Nat} (h : tryStrict rest = some (cap, r)) :
    rest = cap ++ 58 :: r ∧ cap ≠ [] := by
  unfold tryStrict at h
  split at h
  · cases h
  · rename_i hne
    split at h
    · rename_i heq
      split at h
      · rename_i hc
        cases h
        subst hc
        constructor
        · rw [← heq]
          exact (List.takeWhile_append_dropWhile isTokenCode rest).symm
        · simpa [List.isEmpty_iff] using hne
      · cases h
    · cases h

/-- A successful relaxed tail attempt decomposes the remainder of the text:
the match consumes the capture and, when `tc` is set, a closing colon. -/
theorem tryRelaxed_decomp {rest cap r : List Nat} {tc : Bool}
    (h : tryRelaxed rest = some (cap, tc, r)) :
    rest = cap ++ (if tc then 58 :: r else r) ∧ cap ≠ [] := by
  have hsp := List.takeWhile_append_dropWhile isTokenCode rest
  unfold tryRelaxed at h
  split at h
  · cases h
  · rename_i hne
    have hne' : rest.takeWhile isTokenCode ≠ [] := by
      simpa [List.isEmpty_iff] using hne
    split at h
    · rename_i heq
      split at h
      · rename_i hc
        subst hc
        split at h
        · cases h
          refine ⟨?_, hne'⟩
          rw [if_neg (by simp), ← heq]
          exact hsp.symm
        · cases h
          refine ⟨?_, hne'⟩
          rw [if_pos rfl, ← heq]
          exact hsp.symm
      · cases h
        refine ⟨?_, hne'⟩
        rw [if_neg (by simp), ← heq]
        exact hsp.symm
    · rename_i heq
      split at h
      · rename_i hc
        cases h
        subst hc
        refine ⟨?_, hne'⟩
        rw [if_pos rfl, ← heq]
        exact hsp.symm
      · cases h
        refine ⟨?_, hne'⟩
        rw [if_neg (by simp), ← heq]
        exact hsp.symm
    · rename_i heq
      cases h
      refine ⟨?_, hne'⟩
      rw [if_neg (by simp), List.append_nil]
      rw [heq, List.append_nil] at hsp
      exact hsp.symm

/-- From a true lookbehind, the preceding character is not the escape. -/
theorem lookbehindOk_ne_escape {p : Nat} (h : lookbehindOk (some p) = true) : p ≠ 92 := by
  simp [lookbehindOk] at h
  exact h.2

theorem prevAfter_of_ne_nil {xs : List Nat} (p : Option Nat) (h : xs ≠ []) :
    prevAfter p xs = some (xs.getLastD 0) := by
  cases xs with
  | nil => exact absurd rfl h
  | cons a m => rfl

theorem getElem?_last : ∀ (pre : List Nat), pre ≠ [] →
    pre[pre.length - 1]? = some (pre.getLastD 0) := by
  intro pre
  induction pre with
  | nil => intro h; exact absurd rfl h
  | cons a m ih =>
      intro _
      cases m with
      | nil => rfl
      | cons b m' =>
          have hm : (b :: m') ≠ [] := by simp
          have h1 : (a :: b :: m').length - 1 = ((b :: m').length - 1) + 1 := by
            simp
          rw [h1, List.getElem?_cons_succ, ih hm, List.getLastD_cons,
            List.getLastD_cons, List.getLastD_cons]

/-- C5 (escape handling, strict half): the strict scanner never emits a match
whose start is immediately preceded by the escape character.  The scanner is
run on the suffix `cur` of the full text `pre ++ cur`, with the tracked
previous character and index consistent with `pre`. -/
theorem strictFind_no_escaped_start :
    ∀ n (cur : List Nat), cur.length ≤ n → ∀ (pre : List Nat) s cap e,
      (s, cap, e) ∈ strictFind (prevAfter none pre) pre.length cur →
      s = 0 ∨ (pre ++ cur)[s - 1]? ≠ some 92 := by
  intro n
  induction n with
  | zero =>
      intro cur hl pre s cap e hmem
      have : cur = [] := List.length_eq_zero.mp (Nat.le_zero.mp hl)
      subst this
      rw [strictFind_nil] at hmem
      simp at hmem
  | succ n ih =>
      intro cur hl pre s cap e hmem
      cases cur with
      | nil =>
          rw [strictFind_nil] at hmem
          simp at hmem
      | cons c rest =>
          have hrlen : rest.length ≤ n := by
            simp at hl
            omega
          by_cases hc : c = 58 ∧ lookbehindOk (prevAfter none pre) = true
          · obtain ⟨rfl, hlb⟩ := hc
            cases hts : tryStrict rest with
            | none =>
                rw [strictFind_fail _ hlb hts] at hmem
                have hpa : prevAfter none (pre ++ [58]) = some 58 := by
                  rw [prevAfter_of_ne_nil _ (by simp), getLastD_append_cons]
                  rfl
                have hlen : (pre ++ [58]).length = pre.length + 1 := by simp
                rw [← hpa, ← hlen] at hmem
                have hres := ih rest hrlen (pre ++ [58]) s cap e hmem
                rwa [List.append_assoc, List.singleton_append] at hres
            | some p =>
                obtain ⟨cap', r⟩ := p
                rw [strictFind_match _ hlb hts] at hmem
                obtain ⟨hrest, hcapne⟩ := tryStrict_decomp hts
                rcases List.mem_cons.mp hmem with hhead | htail
                · cases hhead
                  by_cases hpre : pre = []
                  · left
                    simp [hpre]
                  · right
                    have hlt : pre.length - 1 < pre.length := by
                      have := List.length_pos.mpr hpre
                      omega
                    rw [List.getElem?_append_left hlt, getElem?_last pre hpre]
                    intro hcontra
                    rw [prevAfter_of_ne_nil _ hpre] at hlb
                    exact lookbehindOk_ne_escape hlb (Option.some.inj hcontra)
                · set pre2 := pre ++ 58 :: (cap' ++ [58]) with hpre2
                  have hpa : prevAfter none pre2 = some 58 := by
                    rw [prevAfter_of_ne_nil _ (by simp [hpre2]), hpre2,
                      getLastD_append_cons]
                    have h58 : (58 :: (cap' ++ [58])) = (58 :: cap') ++ [58] := by
                      simp
                    rw [h58, getLastD_append_cons]
                    rfl
                  have hlen : pre2.length = pre.length + cap'.length + 2 := by
                    simp [hpre2]
                    omega
                  rw [← hpa, ← hlen] at htail
                  have hres := ih r (by
                      have h2 := congrArg List.length hrest
                      simp at h2 hl
                      omega) pre2 s cap e htail
                  have happ : pre2 ++ r = pre ++ 58 :: rest := by
                    rw [hpre2, hrest]
                    simp
                  rwa [happ] at hres
          · rw [strictFind_skip _ _ hc] at hmem
            have hpa : prevAfter none (pre ++ [c]) = some c := by
              rw [prevAfter_of_ne_nil _ (by simp), getLastD_append_cons]
              rfl
            have hlen : (pre ++ [c]).length = pre.length + 1 := by simp
            rw [← hpa, ← hlen] at hmem
            have hres := ih rest hrlen (pre ++ [c]) s cap e hmem
            rwa [List.append_assoc, List.singleton_append] at hres

/-- Python `.strip()` whitespace for the code points used by the plugin. -/
def isSpaceCode (c : Nat) : Bool :=
  c = 32 || c = 9 || c = 10 || c = 13 || c = 11 || c = 12

/-- Python `str.strip()`: drop whitespace from both ends. -/
def trimCodes (s : List Nat) : List Nat :=
  ((s.dropWhile isSpaceCode).reverse.dropWhile isSpaceCode).reverse

/-- Python `str.lower()` restricted to ASCII letters. -/
def lowerCode (c : Nat) : Nat :=
  if 65 ≤ c ∧ c ≤ 90 then c + 32 else c

/-- `str(x).strip().lower()`: the token normalization used across the plugin. -/
def normalizeCodes (s : List Nat) : List Nat :=
  (trimCodes s).map lowerCode

/-- Python `dict.get` over an association list (first binding wins). -/
def tableGet (table : List (List Nat × List Nat)) (k : List Nat) :
    Option (List Nat) :=
  (table.find? (fun p => p.1 == k)).map (fun p => p.2)

/-- One tail attempt of whichever grammar is selected, in the uniform
`(capture, closing-colon-consumed, remainder)` shape. -/
def tryPattern (strict : Bool) (rest : List Nat) : Option (List Nat × Bool × List Nat) :=
  if strict then (tryStrict rest).map (fun p => (p.1, true, p.2)) else tryRelaxed rest

/-- `pattern.sub(_replace, text)` of `convert_emoji_shortcodes`: each match is
replaced by the table entry for its normalized group-1 key, or kept verbatim
(`match.group(0)`) when the key is unknown; text between matches is copied. -/
def subEmojiAux (strict : Bool) (table : List (List Nat × List Nat)) :
    Nat → Option Nat → List Nat → List Nat
  | _, _, [] => []
  | 0, _, l => l
  | fuel + 1, prev, c :: rest =>
    if c = 58 ∧ lookbehindOk prev then
      match tryPattern strict rest with
      | some (cap, tc, r) =>
          (match tableGet table (normalizeCodes cap) with
           | some v => v
           | none => 58 :: (cap ++ (if tc then [58] else []))) ++
            subEmojiAux strict table fuel
              (if tc then some 58 else some (cap.getLastD 0)) r
      | none => c :: subEmojiAux strict table fuel (some c) rest
    else c :: subEmojiAux strict table fuel (some c) rest

def subEmoji (strict : Bool) (table : List (List Nat × List Nat))
    (text : List Nat) : List Nat :=
  subEmojiAux strict table text.length none text

/-- Python `converted.replace("\\:", ":")`: left-to-right, non-overlapping
replacement of every escaped delimiter by its literal form. -/
def replaceEsc : List Nat → List Nat
  | [] => []
  | [c] => [c]
  | c :: d :: rest =>
    if c = 92 ∧ d = 58 then 58 :: replaceEsc rest
    else c :: replaceEsc (d :: rest)

/-- Whether the text contains an escaped delimiter occurrence. -/
def hasEscPair : List Nat → Bool
  | [] => false
  | [_] => false
  | c :: d :: rest => (c = 92 && d = 58) || hasEscPair (d :: rest)

/-- `convert_emoji_shortcodes`: returns the text unchanged when conversion is
disabled, the text has no delimiter, or the shortcode table is empty;
otherwise substitutes every matched shortcode and finally unescapes the
escaped delimiters. -/
def convertEmojiShortcodes (enabled strict : Bool)
    (table : List (List Nat × List Nat)) (text : List Nat) : List Nat :=
  if ¬enabled ∨ ¬(58 ∈ text) then text
  else if table.isEmpty then text
  else replaceEsc (subEmoji strict table text)

/-- The unescaping pass rewrites the leftmost escaped delimiter exactly once:
the escape character is dropped, the delimiter itself is kept, and the
produced delimiter is not reconsidered. -/
theorem replaceEsc_once :
    ∀ (u v : List Nat), hasEscPair u = false →
      replaceEsc (u ++ 92 :: 58 :: v) = u ++ 58 :: replaceEsc v := by
  intro u
  induction u with
  | nil =>
      intro v _
      rw [List.nil_append, List.nil_append, replaceEsc, if_pos ⟨rfl, rfl⟩]
  | cons a u ih =>
      intro v hu
      cases u with
      | nil =>
          rw [List.singleton_append, List.singleton_append, replaceEsc,
            if_neg (by simp)]
          rw [replaceEsc, if_pos ⟨rfl, rfl⟩]
      | cons b u' =>
          rw [hasEscPair] at hu
          simp only [Bool.or_eq_false_iff, Bool.and_eq_false_iff] at hu
          have hpair : ¬(a = 92 ∧ b = 58) := by
            rcases hu.1 with h | h <;> (intro hcon; simp [hcon.1, hcon.2] at h)
          rw [List.cons_append, List.cons_append, replaceEsc, if_neg hpair,
            ← List.cons_append, ih v hu.2]
          simp

/-- C5 (escape handling, relaxed half): the relaxed scanner never emits a
match whose start is immediately preceded by the escape character. -/
theorem relaxedFind_no_escaped_start :
    ∀ n (cur : List Nat), cur.length ≤ n → ∀ (pre : List Nat) s cap e,
      (s, cap, e) ∈ relaxedFind (prevAfter none pre) pre.length cur →
      s = 0 ∨ (pre ++ cur)[s - 1]? ≠ some 92 := by
  intro n
  induction n with
  | zero =>
      intro cur hl pre s cap e hmem
      have : cur = [] := List.length_eq_zero.mp (Nat.le_zero.mp hl)
      subst this
      rw [relaxedFind_nil] at hmem
      simp at hmem
  | succ n ih =>
      intro cur hl pre s cap e hmem
      cases cur with
      | nil =>
          rw [relaxedFind_nil] at hmem
          simp at hmem
      | cons c rest =>
          have hrlen : rest.length ≤ n := by
            simp at hl
            omega
          by_cases hc : c = 58 ∧ lookbehindOk (prevAfter none pre) = true
          · obtain ⟨rfl, hlb⟩ := hc
            cases htr : tryRelaxed rest with
            | none =>
                rw [relaxedFind_fail _ hlb htr] at hmem
                have hpa : prevAfter none (pre ++ [58]) = some 58 := by
                  rw [prevAfter_of_ne_nil _ (by simp), getLastD_append_cons]
                  rfl
                have hlen : (pre ++ [58]).length = pre.length + 1 := by simp
                rw [← hpa, ← hlen] at hmem
                have hres := ih rest hrlen (pre ++ [58]) s cap e hmem
                rwa [List.append_assoc, List.singleton_append] at hres
            | some p =>
                obtain ⟨cap', tc, r⟩ := p
                obtain ⟨hrest, hcapne⟩ := tryRelaxed_decomp htr
                cases tc with
                | true =>
                    rw [if_pos rfl] at hrest
                    rw [relaxedFind_match_colon _ hlb htr] at hmem
                    rcases List.mem_cons.mp hmem with hhead | htail
                    · cases hhead
                      by_cases hpre : pre = []
                      · left
                        simp [hpre]
                      · right
                        have hlt : pre.length - 1 < pre.length := by
                          have := List.length_pos.mpr hpre
                          omega
                        rw [List.getElem?_append_left hlt, getElem?_last pre hpre]
                        intro hcontra
                        rw [prevAfter_of_ne_nil _ hpre] at hlb
                        exact lookbehindOk_ne_escape hlb (Option.some.inj hcontra)
                    · set pre2 := pre ++ 58 :: (cap' ++ [58]) with hpre2
                      have hpa : prevAfter none pre2 = some 58 := by
                        rw [prevAfter_of_ne_nil _ (by simp [hpre2]), hpre2,
                          getLastD_append_cons]
                        have h58 : (58 :: (cap' ++ [58])) = (58 :: cap') ++ [58] := by
                          simp
                        rw [h58, getLastD_append_cons]
                        rfl
                      have hlen : pre2.length = pre.length + 1 + cap'.length + 1 := by
                        simp [hpre2]
                        omega
                      rw [← hpa, ← hlen] at htail
                      have hres := ih r (by
                          have h2 := congrArg List.length hrest
                          simp at h2 hl
                          omega) pre2 s cap e htail
                      have happ : pre2 ++ r = pre ++ 58 :: rest := by
                        rw [hpre2, hrest]
                        simp
                      rwa [happ] at hres
                | false =>
                    rw [if_neg (by simp)] at hrest
                    rw [relaxedFind_match_noColon _ hlb htr] at hmem
                    rcases List.mem_cons.mp hmem with hhead | htail
                    · cases hhead
                      by_cases hpre : pre = []
                      · left
                        simp [hpre]
                      · right
                        have hlt : pre.length - 1 < pre.length := by
                          have := List.length_pos.mpr hpre
                          omega
                        rw [List.getElem?_append_left hlt, getElem?_last pre hpre]
                        intro hcontra
                        rw [prevAfter_of_ne_nil _ hpre] at hlb
                        exact lookbehindOk_ne_escape hlb (Option.some.inj hcontra)
                    · set pre2 := pre ++ 58 :: cap' with hpre2
                      have hpa : prevAfter none pre2 = some (cap'.getLastD 0) := by
                        rw [prevAfter_of_ne_nil _ (by simp [hpre2]), hpre2,
                          getLastD_append_cons, List.getLastD_cons]
                        rw [getLastD_irrel hcapne 58 0]
                      have hlen : pre2.length = pre.length + 1 + cap'.length := by
                        simp [hpre2]
                        omega
                      rw [← hpa, ← hlen] at htail
                      have hres := ih r (by
                          have h2 := congrArg List.length hrest
                          have hcp : 0 < cap'.length := List.length_pos.mpr hcapne
                          simp at h2 hl
                          omega) pre2 s cap e htail
                      have happ : pre2 ++ r = pre ++ 58 :: rest := by
                        rw [hpre2, hrest]
                        simp
                      rwa [happ] at hres
          · rw [relaxedFind_skip _ _ hc] at hmem
            have hpa : prevAfter none (pre ++ [c]) = some c := by
              rw [prevAfter_of_ne_nil _ (by simp), getLastD_append_cons]
              rfl
            have hlen : (pre ++ [c]).length = pre.length + 1 := by simp
            rw [← hpa, ← hlen] at hmem
            have hres := ih rest hrlen (pre ++ [c]) s cap e hmem
            rwa [List.append_assoc, List.singleton_append] at hres

/-- C4: for every input text, every token key (group-1 capture) located by the
strict shortcode grammar is also located by the relaxed shortcode grammar on
the same input: the strict capture set is a subset of the relaxed capture set. -/
theorem strict_captures_subset_relaxed (text : List Nat) (x : List Nat)
    (hx : x ∈ strictCaptures text) : x ∈ relaxedCaptures text :=
  captures_subset_aux text.length text le_rfl none 0 0 x hx

/-- Witness for C4 at a concrete input: on `":a.:b:"` the key `"a."` is found
by the strict grammar and, by the theorem, also by the relaxed grammar. -/
theorem strict_captures_subset_relaxed_witness :
    codes "a." ∈ strictCaptures (codes ":a.:b:") ∧
      codes "a." ∈ relaxedCaptures (codes ":a.:b:") :=
  ⟨by decide, strict_captures_subset_relaxed (codes ":a.:b:") (codes "a.") (by decide)⟩

/-- C5 counterexample to the original claim: with the emoji-conversion pass
disabled (the code default), the final output keeps the escaped delimiter
verbatim - it is not unescaped, although the original claim demands the
unescape regardless of which substitution passes ran.  The second conjunct
shows the text genuinely contains an escaped delimiter: unescaping it would
change the text. -/
theorem escaped_delimiter_disabled_counterexample :
    convertEmojiShortcodes false false [(codes "y", codes "EM")]
        (codes "\\:x: :y:")
      = codes "\\:x: :y:" ∧
    replaceEsc (codes "\\:x: :y:") ≠ codes "\\:x: :y:" := by decide

/-- C5 (amended): neither the strict nor the relaxed grammar matches a token
whose opening delimiter is immediately preceded by the escape character; when
the emoji-conversion pass runs (conversion enabled, a delimiter present, a
non-empty table) its output is the substitution result with every escaped
delimiter unescaped exactly once (the escape dropped, the delimiter kept, the
produced delimiter not reconsidered), regardless of whether any token
matched; and when conversion is disabled - the code default - the pass
returns the text verbatim, leaving escaped delimiters untouched. -/
theorem escaped_delimiter_handling :
    (∀ (text : List Nat) s cap e, (s, cap, e) ∈ strictFind none 0 text →
        s = 0 ∨ text[s - 1]? ≠ some 92) ∧
    (∀ (text : List Nat) s cap e, (s, cap, e) ∈ relaxedFind none 0 text →
        s = 0 ∨ text[s - 1]? ≠ some 92) ∧
    (∀ u v : List Nat, hasEscPair u = false →
        replaceEsc (u ++ 92 :: 58 :: v) = u ++ 58 :: replaceEsc v) ∧
    (∀ (strict : Bool) (table : List (List Nat × List Nat)) (text : List Nat),
        58 ∈ text → ¬table.isEmpty →
        convertEmojiShortcodes true strict table text
          = replaceEsc (subEmoji strict table text)) ∧
    (∀ (strict : Bool) (table : List (List Nat × List Nat)) (text : List Nat),
        convertEmojiShortcodes false strict table text = text) ∧
    convertEmojiShortcodes true false [(codes "y", codes "EM")] (codes "\\:x: :y:")
      = codes ":x: EM" := by
  refine ⟨?_, ?_, replaceEsc_once, ?_, ?_, by decide⟩
  · intro text s cap e hmem
    have h := strictFind_no_escaped_start text.length text le_rfl [] s cap e hmem
    simpa using h
  · intro text s cap e hmem
    have h := relaxedFind_no_escaped_start text.length text le_rfl [] s cap e hmem
    simpa using h
  · intro strict table text htext htab
    unfold convertEmojiShortcodes
    rw [if_neg (by simp [htext]), if_neg htab]
  · intro strict table text
    rw [convertEmojiShortcodes, if_pos (Or.inl Bool.false_ne_true)]

/-- Witness for C5 at a concrete input: the match of `":a:"` starts at 0 and
the escape-position disjunction holds there. -/
theorem escaped_delimiter_handling_witness :
    ((0, codes "a", 3) ∈ strictFind none 0 (codes ":a:")) ∧
      (0 = 0 ∨ (codes ":a:")[0 - 1]? ≠ some 92) :=
  ⟨by decide,
    escaped_delimiter_handling.1 (codes ":a:") 0 (codes "a") 3 (by decide)⟩

/-! ## Reconstruction engine (hook_replace_shortcodes / _send_split_messages) -/

/-- A catalog entry as the hook sees it: `sticker_id`, `body` and `tags`
(alias list).  Empty strings model Python falsy attributes. -/
structure Sticker where
  sticker_id : List Nat
  body : List Nat
  tags : List (List Nat)
deriving DecidableEq

/-- An element of an outgoing message chain. -/
inductive Component where
  | plain (text : List Nat)
  | sticker (s : Sticker)
  | image (s : Sticker)
deriving DecidableEq

/-- `getattr(sticker, "sticker_id", None) or sticker.body`. -/
def effId (s : Sticker) : List Nat :=
  if s.sticker_id = [] then s.body else s.sticker_id

/-- Scanner selected by `_get_shortcode_pattern`. -/
def findWith (strict : Bool) (text : List Nat) : List (Nat × List Nat × Nat) :=
  if strict then strictFind none 0 text else relaxedFind none 0 text

/-- `_resolve_shortcode_sticker_map`: resolve each shortcode once, keyed by the
normalized form, skipping empty keys and duplicates; `find` models
`_find_sticker_by_shortcode` (exceptions folded into `none`). -/
def resolveMapAux (find : List Nat → Option Sticker) :
    List (List Nat) → List (List Nat × Option Sticker) → List (List Nat × Option Sticker)
  | [], acc => acc
  | sc :: rest, acc =>
    let norm := normalizeCodes sc
    if norm = [] ∨ (acc.find? (fun p => p.1 == norm)).isSome then
      resolveMapAux find rest acc
    else resolveMapAux find rest (acc ++ [(norm, find sc)])

def resolveShortcodeStickerMap (find : List Nat → Option Sticker)
    (shortcodes : List (List Nat)) : List (List Nat × Option Sticker) :=
  resolveMapAux find shortcodes []

/-- `resolved_shortcodes.get(norm)` followed by the truthiness test: a missing
key and a stored `None` both yield no sticker. -/
def mapGet (m : List (List Nat × Option Sticker)) (k : List Nat) : Option Sticker :=
  match m.find? (fun p => p.1 == k) with
  | some p => p.2
  | none => none

/-- The resolver the hook builds for a text buffer. -/
def hookResolvedGet (find : List Nat → Option Sticker) (strict : Bool)
    (text : List Nat) : List Nat → Option Sticker :=
  fun k =>
    mapGet (resolveShortcodeStickerMap find
      ((findWith strict text).map (fun m => m.2.1))) k

/-- The configured value of `matrix_sticker_max_per_reply`: absent, an
unparsable value, or a parsed integer. -/
inductive CfgInt where
  | parsed (n : Int)
  | unparsable
deriving DecidableEq

/-- `_get_max_stickers_per_reply`: default 5, 5 on parse failure, `none`
(unlimited) for values at most 0. -/
def getMaxStickersPerReply : Option CfgInt → Option Int
  | none => some 5
  | some .unparsable => some 5
  | some (.parsed n) => if n ≤ 0 then none else some n

/-- Python slice `text[a:b]`. -/
def slice (t : List Nat) (a b : Nat) : List Nat := (t.take b).drop a

/-- State threaded through the in-place substitution walk. -/
structure SubstState where
  found : List (List Nat × Component)
  marked : List (List Nat)
  chain : List Component
  modified : Bool
deriving DecidableEq

/-- The per-match body of the in-place substitution loop of
`hook_replace_shortcodes` (lines 460-518), returning the updated state, the
final `last_end` and the `component_modified` flag. -/
def substMatches (isMatrix isStreaming : Bool) (imageOk : Sticker → Bool)
    (resolvedGet : List Nat → Option Sticker) (maxS : Option Int)
    (text : List Nat) :
    List (Nat × List Nat × Nat) → Nat → SubstState → Bool → SubstState × Nat × Bool
  | [], lastEnd, st, cm => (st, lastEnd, cm)
  | (s, cap, e) :: ms, lastEnd, st, cm =>
    match resolvedGet (normalizeCodes cap) with
    | none => substMatches isMatrix isStreaming imageOk resolvedGet maxS text ms lastEnd st cm
    | some stk =>
      let sid := effId stk
      let repl? : Option Component :=
        if isMatrix then some (.sticker stk)
        else if imageOk stk then some (.image stk) else none
      match repl? with
      | none => substMatches isMatrix isStreaming imageOk resolvedGet maxS text ms lastEnd st cm
      | some repl =>
        let st1 := if lastEnd < s ∧ slice text lastEnd s ≠ []
          then { st with chain := st.chain ++ [.plain (slice text lastEnd s)] }
          else st
        if maxS = none ∨ sid ∈ st1.found.map Prod.fst ∨
            (st1.found.length : Int) < maxS.getD 0 then
          let st2 :=
            if isStreaming ∧ isMatrix then
              if sid ∈ st1.found.map Prod.fst then st1
              else { st1 with found := st1.found ++ [(sid, Component.sticker stk)] }
            else
              if sid ∈ st1.found.map Prod.fst then st1
              else
                let usageId := if stk.sticker_id = [] then sid else stk.sticker_id
                { st1 with
                  chain := st1.chain ++ [repl],
                  found := st1.found ++ [(sid, repl)],
                  marked := if usageId ≠ [] ∧ usageId ∉ st1.marked
                    then st1.marked ++ [usageId] else st1.marked }
          substMatches isMatrix isStreaming imageOk resolvedGet maxS text ms e
            { st2 with modified := true } true
        else
          substMatches isMatrix isStreaming imageOk resolvedGet maxS text ms e
            { st1 with chain := st1.chain ++ [.plain (slice text s e)] } true

/-- The per-component walk of the in-place substitution (lines 449-529). -/
def substitutePassAux (isMatrix isStreaming strict : Bool) (imageOk : Sticker → Bool)
    (resolvedGet : List Nat → Option Sticker) (maxS : Option Int) :
    List Component → SubstState → SubstState
  | [], st => st
  | comp :: rest, st =>
    match comp with
    | .plain text =>
        let ms := findWith strict text
        if ms.isEmpty then
          substitutePassAux isMatrix isStreaming strict imageOk resolvedGet maxS rest
            { st with chain := st.chain ++ [comp] }
        else
          let res := substMatches isMatrix isStreaming imageOk resolvedGet maxS text
            ms 0 st false
          let st1 := res.1
          let lastEnd := res.2.1
          let cm := res.2.2
          let tail :=
            if lastEnd < text.length ∧ text.drop lastEnd ≠ [] then
              [Component.plain (text.drop lastEnd)]
            else []
          let cm2 := cm ∨ (lastEnd < text.length ∧ text.drop lastEnd ≠ [])
          let st2 := { st1 with chain := st1.chain ++ tail }
          let st3 := if cm2 then st2 else { st2 with chain := st2.chain ++ [comp] }
          substitutePassAux isMatrix isStreaming strict imageOk resolvedGet maxS rest st3
    | _ =>
        substitutePassAux isMatrix isStreaming strict imageOk resolvedGet maxS rest
          { st with chain := st.chain ++ [comp] }

def substitutePass (isMatrix isStreaming strict : Bool) (imageOk : Sticker → Bool)
    (resolvedGet : List Nat → Option Sticker) (maxS : Option Int)
    (chain : List Component) : SubstState :=
  substitutePassAux isMatrix isStreaming strict imageOk resolvedGet maxS chain
    ⟨[], [], [], false⟩

/-- Segment construction of `_send_split_messages` (lines 576-611). -/
def splitSegsAux (resolvedGet : List Nat → Option Sticker) (maxS : Option Int)
    (text : List Nat) :
    List (Nat × List Nat × Nat) → Nat → List (List Nat × Sticker) → List Component →
      List Component
  | [], lastEnd, _, segs =>
      if lastEnd < text.length ∧ text.drop lastEnd ≠ [] then
        segs ++ [.plain (text.drop lastEnd)]
      else segs
  | (s, cap, e) :: ms, lastEnd, found, segs =>
      let segs1 := if lastEnd < s ∧ slice text lastEnd s ≠ []
        then segs ++ [.plain (slice text lastEnd s)] else segs
      match resolvedGet (normalizeCodes cap) with
      | some stk =>
          let sid := effId stk
          if maxS = none ∨ sid ∈ found.map Prod.fst ∨
              (found.length : Int) < maxS.getD 0 then
            let found1 := if sid ∈ found.map Prod.fst then found
              else found ++ [(sid, stk)]
            splitSegsAux resolvedGet maxS text ms e found1 (segs1 ++ [.sticker stk])
          else
            splitSegsAux resolvedGet maxS text ms e found
              (segs1 ++ [.plain (slice text s e)])
      | none =>
          splitSegsAux resolvedGet maxS text ms e found
            (segs1 ++ [.plain (slice text s e)])

def buildSplitSegments (strict : Bool) (resolvedGet : List Nat → Option Sticker)
    (maxS : Option Int) (text : List Nat) : List Component :=
  splitSegsAux resolvedGet maxS text (findWith strict text) 0 [] []

/-- Text concatenation of all `Plain` components (lines 403-406). -/
def concatPlainTexts : List Component → List Nat
  | [] => []
  | .plain t :: rest => t ++ concatPlainTexts rest
  | _ :: rest => concatPlainTexts rest

/-- The unresolved shortcodes collected by the full-intercept gate. -/
def missingOf (find : List Nat → Option Sticker) (strict : Bool)
    (text : List Nat) : List (List Nat) :=
  ((findWith strict text).map (fun m => m.2.1)).filter
    (fun cap => (hookResolvedGet find strict text (normalizeCodes cap)).isNone)

/-- What `hook_replace_shortcodes` does with the outgoing message. -/
inductive HookOutcome where
  /-- early-return paths that only run the emoji conversion -/
  | passthrough
  /-- full-intercept: buffer handed to the Split Sender, result chain cleared,
  `_streaming_finished` extra set -/
  | split (segs : List Component) (chainCleared : Bool) (streamingFinished : Bool)
  /-- matrix streaming finish: deduplicated stickers sent as follow-ups -/
  | followUps (stickers : List Component)
  /-- in-place substitution result replacing the chain -/
  | inPlace (newChain : List Component)
  /-- nothing modified -/
  | unchanged
deriving DecidableEq

/-- The in-place branch outcome (lines 443-560). -/
def normalOutcome (isMatrix isStreaming strict : Bool) (imageOk : Sticker → Bool)
    (resolvedGet : List Nat → Option Sticker) (maxS : Option Int)
    (chain : List Component) : HookOutcome :=
  let st := substitutePass isMatrix isStreaming strict imageOk resolvedGet maxS chain
  if st.modified then
    if isMatrix ∧ isStreaming ∧ ¬st.found.isEmpty then
      .followUps (st.found.map Prod.snd)
    else .inPlace st.chain
  else .unchanged

/-- `hook_replace_shortcodes` (lines 373-562), with the runtime flags and the
cached streaming completion text as parameters. -/
def hookReplaceShortcodes (runtimeOn isMatrix extensionOn storageOk : Bool)
    (fullIntercept isStreaming strict : Bool) (imageOk : Sticker → Bool)
    (find : List Nat → Option Sticker) (maxCfg : Option CfgInt)
    (cached : List Nat) (chain : List Component) : HookOutcome :=
  if ¬runtimeOn then .passthrough
  else if ¬isMatrix ∧ ¬extensionOn then .passthrough
  else if ¬storageOk then .passthrough
  else
    let fullText0 := concatPlainTexts chain
    let chain1 := if fullText0 = [] ∧ cached ≠ [] then [Component.plain cached] else chain
    let fullText := if fullText0 = [] ∧ cached ≠ [] then cached else fullText0
    let resolvedGet := hookResolvedGet find strict fullText
    if isMatrix ∧ fullIntercept ∧ findWith strict fullText ≠ [] ∧
        missingOf find strict fullText = [] then
      .split (buildSplitSegments strict resolvedGet
        (getMaxStickersPerReply maxCfg) fullText) true true
    else
      normalOutcome isMatrix isStreaming strict imageOk resolvedGet
        (getMaxStickersPerReply maxCfg) chain1

/-! ## Demo fixtures used by the concrete halves of the claims -/

def demoX : Sticker := ⟨codes "id-x", codes "x", []⟩
def demoY : Sticker := ⟨codes "id-y", codes "y", []⟩
def demoA : Sticker := ⟨codes "id-a", codes "a", []⟩
def demoB : Sticker := ⟨codes "id-b", codes "b", []⟩
def demoC : Sticker := ⟨codes "id-c", codes "c", []⟩

def demoFindXY : List Nat → Option Sticker := fun k =>
  if k = codes "x" then some demoX else if k = codes "y" then some demoY else none

def demoFindX : List Nat → Option Sticker := fun k =>
  if k = codes "x" then some demoX else none

def demoFindABC : List Nat → Option Sticker := fun k =>
  if k = codes "a" then some demoA else if k = codes "b" then some demoB
  else if k = codes "c" then some demoC else none

def demoResolveAB : List Nat → Option Sticker := fun k =>
  if k = codes "a" then some demoA else if k = codes "b" then some demoB else none

/-- C1: with full-intercept enabled on a matrix delivery context, when the
buffer has matches and every matched token resolves, the whole buffer is
handed to the Split Sender, the outgoing segment list is cleared and the
event is marked fully delivered; on `"a :x: b :y: c"` with both tokens
resolving the split path emits exactly
`[Text "a ", Attachment x, Text " b ", Attachment y, Text " c"]`; if a token
fails to resolve, the split path is skipped and normal in-place substitution
proceeds (no suppression). -/
theorem full_intercept_engine :
    (∀ (strict isStreaming extOn : Bool) (imageOk : Sticker → Bool)
        (find : List Nat → Option Sticker) (maxCfg : Option CfgInt)
        (chain : List Component),
        findWith strict (concatPlainTexts chain) ≠ [] →
        missingOf find strict (concatPlainTexts chain) = [] →
        hookReplaceShortcodes true true extOn true true isStreaming strict imageOk
            find maxCfg [] chain
          = .split (buildSplitSegments strict
              (hookResolvedGet find strict (concatPlainTexts chain))
              (getMaxStickersPerReply maxCfg) (concatPlainTexts chain)) true true) ∧
    (∀ (strict isStreaming extOn : Bool) (imageOk : Sticker → Bool)
        (find : List Nat → Option Sticker) (maxCfg : Option CfgInt)
        (chain : List Component),
        missingOf find strict (concatPlainTexts chain) ≠ [] →
        hookReplaceShortcodes true true extOn true true isStreaming strict imageOk
            find maxCfg [] chain
          = normalOutcome true isStreaming strict imageOk
              (hookResolvedGet find strict (concatPlainTexts chain))
              (getMaxStickersPerReply maxCfg) chain) ∧
    (hookReplaceShortcodes true true false true true false false (fun _ => true)
        demoFindXY none [] [Component.plain (codes "a :x: b :y: c")]
      = .split [Component.plain (codes "a "), Component.sticker demoX,
          Component.plain (codes " b "), Component.sticker demoY,
          Component.plain (codes " c")] true true) ∧
    (hookReplaceShortcodes true true false true true false false (fun _ => true)
        demoFindX none [] [Component.plain (codes "a :x: b :y: c")]
      = .inPlace [Component.plain (codes "a "), Component.sticker demoX,
          Component.plain (codes " b :y: c")]) := by
  refine ⟨?_, ?_, by decide, by decide⟩
  · intro strict isStreaming extOn imageOk find maxCfg chain hm hmiss
    unfold hookReplaceShortcodes
    rw [if_neg (by simp), if_neg (by simp), if_neg (by simp)]
    have hcc : ¬(concatPlainTexts chain = [] ∧ ([] : List Nat) ≠ []) := by simp
    simp only [if_neg hcc]
    rw [if_pos ⟨trivial, trivial, hm, hmiss⟩]
  · intro strict isStreaming extOn imageOk find maxCfg chain hmiss
    unfold hookReplaceShortcodes
    rw [if_neg (by simp), if_neg (by simp), if_neg (by simp)]
    have hcc : ¬(concatPlainTexts chain = [] ∧ ([] : List Nat) ≠ []) := by simp
    simp only [if_neg hcc]
    rw [if_neg (by
      intro hcon
      exact hmiss hcon.2.2.2)]

/-- Witness for C1: the general split branch applied at the concrete input. -/
theorem full_intercept_engine_witness :
    missingOf demoFindXY false (concatPlainTexts
        [Component.plain (codes "a :x: b :y: c")]) = [] ∧
      hookReplaceShortcodes true true false true true false false (fun _ => true)
          demoFindXY none [] [Component.plain (codes "a :x: b :y: c")]
        = .split (buildSplitSegments false
            (hookResolvedGet demoFindXY false
              (concatPlainTexts [Component.plain (codes "a :x: b :y: c")]))
            (getMaxStickersPerReply none)
            (concatPlainTexts [Component.plain (codes "a :x: b :y: c")])) true true :=
  ⟨by decide,
    full_intercept_engine.1 false false false (fun _ => true) demoFindXY none
      [Component.plain (codes "a :x: b :y: c")] (by decide) (by decide)⟩

/-- C2: in the normal substitution path, with the attachment cap configured
to 2 and three distinct resolvable tokens, exactly two distinct attachments
are emitted and the third token's literal raw text is kept in place; a
configured value of at most 0 means unlimited, and an absent or unparsable
option yields the default cap 5. -/
theorem attachment_cap_behavior :
    (∀ n : Int, n ≤ 0 → getMaxStickersPerReply (some (.parsed n)) = none) ∧
    (∀ n : Int, 0 < n → getMaxStickersPerReply (some (.parsed n)) = some n) ∧
    getMaxStickersPerReply none = some 5 ∧
    getMaxStickersPerReply (some .unparsable) = some 5 ∧
    (hookReplaceShortcodes true true false true false false false (fun _ => true)
        demoFindABC (some (.parsed 2)) [] [Component.plain (codes ":a: :b: :c:")]
      = .inPlace [Component.sticker demoA, Component.plain (codes " "),
          Component.sticker demoB, Component.plain (codes " "),
          Component.plain (codes ":c:")]) := by
  refine ⟨?_, ?_, rfl, rfl, by decide⟩
  · intro n h
    simp [getMaxStickersPerReply, h]
  · intro n h
    simp [getMaxStickersPerReply]
    omega

/-- Witness for C2: the cap parser applied at the concrete boundary values. -/
theorem attachment_cap_behavior_witness :
    ((-3 : Int) ≤ 0 ∧ getMaxStickersPerReply (some (.parsed (-3))) = none) ∧
      ((0 : Int) < 2 ∧ getMaxStickersPerReply (some (.parsed 2)) = some 2) :=
  ⟨⟨by decide, attachment_cap_behavior.1 (-3) (by decide)⟩,
    ⟨by decide, attachment_cap_behavior.2.1 2 (by decide)⟩⟩

/-- Sticker ids of the attachment segments of a segment list. -/
def attachIds (segs : List Component) : List (List Nat) :=
  segs.filterMap (fun c =>
    match c with
    | .sticker s => some (effId s)
    | .image s => some (effId s)
    | .plain _ => none)

/-- Counterexample to C3: with the per-reply cap configured to 1 and two
distinct resolvable tokens, the Split Sender emits the second resolved token
as a literal text segment, not as an attachment — the per-message attachment
cap does apply in the split path. -/
theorem split_sender_cap_counterexample :
    (demoResolveAB (codes "a")).isSome = true ∧
      (demoResolveAB (codes "b")).isSome = true ∧
      buildSplitSegments false demoResolveAB (some 1) (codes ":a: :b:")
        = [Component.sticker demoA, Component.plain (codes " "),
            Component.plain (codes ":b:")] ∧
      attachIds (buildSplitSegments false demoResolveAB (some 1) (codes ":a: :b:"))
        = [codes "id-a"] := by
  refine ⟨rfl, rfl, by decide, by decide⟩

theorem dedup_length_le_of_subset {l ks : List (List Nat)}
    (hsub : ∀ x ∈ l, x ∈ ks) (hks : ks.Nodup) : l.dedup.length ≤ ks.length := by
  have h1 : l.dedup.toFinset.card = l.dedup.length :=
    List.toFinset_card_of_nodup (List.nodup_dedup l)
  have h2 : l.dedup.toFinset ⊆ ks.toFinset := by
    intro x hx
    rw [List.mem_toFinset] at hx ⊢
    exact hsub x (List.mem_dedup.mp hx)
  have h3 : ks.toFinset.card = ks.length := List.toFinset_card_of_nodup hks
  calc l.dedup.length = l.dedup.toFinset.card := h1.symm
    _ ≤ ks.toFinset.card := Finset.card_le_card h2
    _ = ks.length := h3

theorem attachIds_append (l1 l2 : List Component) :
    attachIds (l1 ++ l2) = attachIds l1 ++ attachIds l2 := by
  unfold attachIds
  rw [List.filterMap_append]

/-- Cap invariant of the split-segment construction: the number of distinct
sticker ids among attachment segments never exceeds the finite cap. -/
theorem splitSegsAux_cap (resolvedGet : List Nat → Option Sticker) (m : Int)
    (text : List Nat) :
    ∀ (ms : List (Nat × List Nat × Nat)) (lastEnd : Nat)
      (found : List (List Nat × Sticker)) (segs : List Component),
      (found.map Prod.fst).Nodup → ((found.length : Int) ≤ m) →
      (∀ id ∈ attachIds segs, id ∈ found.map Prod.fst) →
      ((attachIds (splitSegsAux resolvedGet (some m) text ms lastEnd
          found segs)).dedup.length : Int) ≤ m := by
  intro ms
  induction ms with
  | nil =>
      intro lastEnd found segs hnd hlen hsub
      have hbase : ∀ segs2 : List Component,
          (∀ id ∈ attachIds segs2, id ∈ found.map Prod.fst) →
          ((attachIds segs2).dedup.length : Int) ≤ m := by
        intro segs2 hsub2
        have := dedup_length_le_of_subset hsub2 hnd
        have hlen2 : (found.map Prod.fst).length = found.length := by simp
        have h4 : ((attachIds segs2).dedup.length : Int)
            ≤ ((found.map Prod.fst).length : Int) := by
          exact_mod_cast this
        rw [hlen2] at h4
        omega
      rw [splitSegsAux]
      split
      · refine hbase _ ?_
        rw [attachIds_append]
        intro id hid
        simp only [List.mem_append] at hid
        rcases hid with h | h
        · exact hsub id h
        · simp [attachIds] at h
      · exact hbase _ hsub
  | cons mt ms ih =>
      obtain ⟨s, cap, e⟩ := mt
      intro lastEnd found segs hnd hlen hsub
      have hsub1 : ∀ segs1 : List Component,
          (∀ id ∈ attachIds segs1, id ∈ found.map Prod.fst) →
          ∀ id ∈ attachIds (segs1 ++ [Component.plain (slice text s e)]),
            id ∈ found.map Prod.fst := by
        intro segs1 hs id hid
        rw [attachIds_append] at hid
        simp only [List.mem_append] at hid
        rcases hid with h | h
        · exact hs id h
        · simp [attachIds] at h
      have hsubA : ∀ id ∈ attachIds (if lastEnd < s ∧ slice text lastEnd s ≠ []
          then segs ++ [Component.plain (slice text lastEnd s)] else segs),
          id ∈ found.map Prod.fst := by
        split
        · rw [attachIds_append]
          intro id hid
          simp only [List.mem_append] at hid
          rcases hid with h | h
          · exact hsub id h
          · simp [attachIds] at h
        · exact hsub
      rw [splitSegsAux]
      cases hres : resolvedGet (normalizeCodes cap) with
      | none =>
          dsimp only
          exact ih e found _ hnd hlen (hsub1 _ hsubA)
      | some stk =>
          dsimp only
          simp only [Option.getD_some]
          by_cases hin : effId stk ∈ found.map Prod.fst
          · rw [if_pos (Or.inr (Or.inl hin)), if_pos hin]
            refine ih e found _ hnd hlen ?_
            rw [attachIds_append]
            intro id hid
            simp only [List.mem_append] at hid
            rcases hid with h | h
            · exact hsubA id h
            · simp [attachIds] at h
              subst h
              exact hin
          · by_cases hlt : (found.length : Int) < m
            · rw [if_pos (Or.inr (Or.inr hlt)), if_neg hin]
              refine ih e (found ++ [(effId stk, stk)]) _ ?_ ?_ ?_
              · rw [List.map_append]
                simp only [List.map_cons, List.map_nil]
                exact List.Nodup.append hnd (List.nodup_singleton _)
                  (by
                    intro x hx hx2
                    simp at hx2
                    subst hx2
                    exact hin hx)
              · simp
                omega
              · rw [attachIds_append]
                intro id hid
                simp only [List.mem_append] at hid
                rcases hid with h | h
                · rw [List.map_append]
                  exact List.mem_append_left _ (hsubA id h)
                · simp [attachIds] at h
                  subst h
                  rw [List.map_append]
                  simp
            · rw [if_neg (by
                intro hcon
                rcases hcon with h | h | h
                · cases h
                · exact hin h
                · exact hlt h)]
              exact ih e found _ hnd hlen (hsub1 _ hsubA)

/-- C3 (amended): the Split Sender applies the configured per-reply cap,
counting distinct sticker ids: the number of distinct attachment ids in the
built segment list never exceeds a finite cap. -/
theorem split_sender_cap_applies (strict : Bool)
    (resolvedGet : List Nat → Option Sticker) (m : Int) (text : List Nat)
    (hm : 0 ≤ m) :
    ((attachIds (buildSplitSegments strict resolvedGet (some m)
        text)).dedup.length : Int) ≤ m := by
  unfold buildSplitSegments
  exact splitSegsAux_cap resolvedGet m text (findWith strict text) 0 [] []
    (by simp) (by simpa using hm) (by simp [attachIds])

/-- Witness for the amended C3 at a concrete input with cap 1. -/
theorem split_sender_cap_applies_witness :
    ((0 : Int) ≤ 1) ∧
      ((attachIds (buildSplitSegments false demoResolveAB (some 1)
          (codes ":a: :b:"))).dedup.length : Int) ≤ 1 :=
  ⟨by decide,
    split_sender_cap_applies false demoResolveAB 1 (codes ":a: :b:") (by decide)⟩

/-! ## C10: per-message deduplication invariant of the in-place path -/

/-- Number of attachment components carrying the given sticker id. -/
def attachCount (chain : List Component) (id : List Nat) : Nat :=
  (chain.filter (fun c =>
    match c with
    | .sticker s => effId s == id
    | .image s => effId s == id
    | .plain _ => false)).length

/-- Invariant threaded through the substitution walk: the found-id keys are
distinct, usage marks are distinct, and every sticker id occurs at most once
as an attachment — exactly zero times while its id is not yet recorded. -/
def GoodState (st : SubstState) : Prop :=
  (st.found.map Prod.fst).Nodup ∧ st.marked.Nodup ∧
  (∀ id, attachCount st.chain id ≤ 1) ∧
  (∀ id, id ∉ st.found.map Prod.fst → attachCount st.chain id = 0)

theorem attachCount_append (l1 l2 : List Component) (id : List Nat) :
    attachCount (l1 ++ l2) id = attachCount l1 id + attachCount l2 id := by
  unfold attachCount
  rw [List.filter_append, List.length_append]

theorem attachCount_plain (t : List Nat) (id : List Nat) :
    attachCount [Component.plain t] id = 0 := rfl

theorem goodState_append_plain {st : SubstState} (h : GoodState st) (t : List Nat) :
    GoodState { st with chain := st.chain ++ [Component.plain t] } := by
  obtain ⟨h1, h2, h3, h4⟩ := h
  refine ⟨h1, h2, ?_, ?_⟩
  · intro id
    rw [attachCount_append, attachCount_plain]
    simpa using h3 id
  · intro id hid
    rw [attachCount_append, attachCount_plain]
    simpa using h4 id hid

theorem goodState_ite_plain {st : SubstState} (h : GoodState st) (c : Prop)
    [Decidable c] (t : List Nat) :
    GoodState (if c then { st with chain := st.chain ++ [Component.plain t] }
      else st) := by
  split
  · exact goodState_append_plain h t
  · exact h

theorem goodState_extend_found {st1 : SubstState} (h : GoodState st1)
    (sid : List Nat) (c : Component) (hnotin : sid ∉ st1.found.map Prod.fst)
    (b : Bool) :
    GoodState ⟨st1.found ++ [(sid, c)], st1.marked, st1.chain, b⟩ := by
  obtain ⟨g1, g2, g3, g4⟩ := h
  refine ⟨?_, g2, g3, ?_⟩
  · show (List.map Prod.fst (st1.found ++ [(sid, c)])).Nodup
    rw [List.map_append]
    refine List.Nodup.append g1 (by simp) ?_
    intro x hx hx2
    simp at hx2
    subst hx2
    exact hnotin hx
  · intro id hid
    have hid1 : id ∉ st1.found.map Prod.fst := by
      intro hcon
      apply hid
      show id ∈ List.map Prod.fst (st1.found ++ [(sid, c)])
      rw [List.map_append]
      exact List.mem_append_left _ hcon
    exact g4 id hid1

theorem goodState_emit {st1 : SubstState} (h : GoodState st1) (sid u : List Nat)
    (repl : Component)
    (hrid : ∀ id, (match repl with
      | Component.sticker s2 => effId s2 == id
      | Component.image s2 => effId s2 == id
      | Component.plain _ => false) = (sid == id))
    (hnotin : sid ∉ st1.found.map Prod.fst) (b : Bool) :
    GoodState ⟨st1.found ++ [(sid, repl)],
      (if u ≠ [] ∧ u ∉ st1.marked then st1.marked ++ [u] else st1.marked),
      st1.chain ++ [repl], b⟩ := by
  obtain ⟨g1, g2, g3, g4⟩ := h
  refine ⟨?_, ?_, ?_, ?_⟩
  · show (List.map Prod.fst (st1.found ++ [(sid, repl)])).Nodup
    rw [List.map_append]
    refine List.Nodup.append g1 (by simp) ?_
    intro x hx hx2
    simp at hx2
    subst hx2
    exact hnotin hx
  · show (if u ≠ [] ∧ u ∉ st1.marked then st1.marked ++ [u] else st1.marked).Nodup
    split
    · rename_i hu
      refine List.Nodup.append g2 (by simp) ?_
      intro x hx hx2
      simp at hx2
      subst hx2
      exact hu.2 hx
    · exact g2
  · intro id
    show attachCount (st1.chain ++ [repl]) id ≤ 1
    rw [attachCount_append]
    unfold attachCount
    simp only [List.filter_cons, List.filter_nil]
    rw [hrid id]
    by_cases hid : sid = id
    · subst hid
      have h0 := g4 sid hnotin
      unfold attachCount at h0
      rw [h0]
      simp
    · have hbeq : (sid == id) = false := by
        simp [hid]
      rw [hbeq]
      simpa using g3 id
  · intro id hid
    have hid' : id ∉ List.map Prod.fst st1.found ∧ id ≠ sid := by
      constructor
      · intro hcon
        apply hid
        show id ∈ List.map Prod.fst (st1.found ++ [(sid, repl)])
        rw [List.map_append]
        exact List.mem_append_left _ hcon
      · intro hcon
        apply hid
        show id ∈ List.map Prod.fst (st1.found ++ [(sid, repl)])
        rw [List.map_append]
        subst hcon
        simp
    show attachCount (st1.chain ++ [repl]) id = 0
    rw [attachCount_append]
    have h0 := g4 id hid'.1
    unfold attachCount at h0 ⊢
    simp only [List.filter_cons, List.filter_nil]
    rw [h0, hrid id]
    have hbeq : (sid == id) = false := by
      simp
      exact fun hcon => hid'.2 hcon.symm
    rw [hbeq]
    simp

theorem substMatches_good (isMatrix isStreaming : Bool) (imageOk : Sticker → Bool)
    (resolvedGet : List Nat → Option Sticker) (maxS : Option Int)
    (text : List Nat) :
    ∀ (ms : List (Nat × List Nat × Nat)) (lastEnd : Nat) (st : SubstState)
      (cm : Bool), GoodState st →
      GoodState (substMatches isMatrix isStreaming imageOk resolvedGet maxS text
        ms lastEnd st cm).1 := by
  intro ms
  induction ms with
  | nil =>
      intro lastEnd st cm h
      exact h
  | cons mt ms ih =>
      obtain ⟨s, cap, e⟩ := mt
      intro lastEnd st cm h
      rw [substMatches]
      cases hres : resolvedGet (normalizeCodes cap) with
      | none => exact ih lastEnd st cm h
      | some stk =>
          dsimp only
          split
          · exact ih lastEnd st cm h
          · rename_i repl hrepl
            have hsh : repl = Component.sticker stk ∨ repl = Component.image stk := by
              split at hrepl
              · exact Or.inl (Option.some.inj hrepl).symm
              · split at hrepl
                · exact Or.inr (Option.some.inj hrepl).symm
                · cases hrepl
            have hst1 : GoodState (if lastEnd < s ∧ slice text lastEnd s ≠ []
                then { st with chain :=
                  st.chain ++ [Component.plain (slice text lastEnd s)] }
                else st) := goodState_ite_plain h _ _
            set st1 := if lastEnd < s ∧ slice text lastEnd s ≠ []
              then { st with chain :=
                st.chain ++ [Component.plain (slice text lastEnd s)] }
              else st with hst1def
            rcases hsh with rfl | rfl
            · split
              · apply ih
                split
                · split
                  · exact hst1
                  · rename_i hnotin
                    exact goodState_extend_found hst1 _ _ hnotin _
                · split
                  · exact hst1
                  · rename_i hnotin
                    exact goodState_emit hst1 (effId stk) _ _ (fun id => rfl)
                      hnotin _
              · exact ih e _ true (goodState_append_plain hst1 _)
            · split
              · apply ih
                split
                · split
                  · exact hst1
                  · rename_i hnotin
                    exact goodState_extend_found hst1 _ _ hnotin _
                · split
                  · exact hst1
                  · rename_i hnotin
                    exact goodState_emit hst1 (effId stk) _ _ (fun id => rfl)
                      hnotin _
              · exact ih e _ true (goodState_append_plain hst1 _)

theorem substitutePassAux_good (isMatrix isStreaming strict : Bool)
    (imageOk : Sticker → Bool) (resolvedGet : List Nat → Option Sticker)
    (maxS : Option Int) :
    ∀ (comps : List Component) (st : SubstState),
      (∀ c ∈ comps, ∃ t, c = Component.plain t) → GoodState st →
      GoodState (substitutePassAux isMatrix isStreaming strict imageOk
        resolvedGet maxS comps st) := by
  intro comps
  induction comps with
  | nil =>
      intro st _ h
      exact h
  | cons comp rest ih =>
      intro st hplain h
      obtain ⟨t, rfl⟩ := hplain comp (by simp)
      rw [substitutePassAux]
      dsimp only
      have hrest : ∀ c ∈ rest, ∃ t2, c = Component.plain t2 :=
        fun c hc => hplain c (by simp [hc])
      split
      · exact ih _ hrest (goodState_append_plain h t)
      · have h1 := substMatches_good isMatrix isStreaming imageOk resolvedGet maxS
          t (findWith strict t) 0 st false h
        split
        · apply ih _ hrest
          split
          · exact goodState_append_plain h1 _
          · simp only [List.append_nil]
            exact h1
        · rename_i hcm2
          apply ih _ hrest
          split
          · rename_i htail
            exact absurd (Or.inr htail) hcm2
          · simp only [List.append_nil]
            exact goodState_append_plain h1 _

/-- C10: in the non-streaming in-place substitution path, over an all-text
message chain, each resolved sticker id is emitted as an attachment at most
once, and each sticker's usage id is marked at most once. -/
theorem single_message_dedup (isMatrix strict : Bool) (imageOk : Sticker → Bool)
    (resolvedGet : List Nat → Option Sticker) (maxS : Option Int)
    (chain : List Component)
    (hplain : ∀ c ∈ chain, ∃ t, c = Component.plain t) :
    (∀ id, attachCount
        (substitutePass isMatrix false strict imageOk resolvedGet maxS chain).chain
        id ≤ 1) ∧
      (substitutePass isMatrix false strict imageOk resolvedGet maxS
        chain).marked.Nodup := by
  have h := substitutePassAux_good isMatrix false strict imageOk resolvedGet maxS
    chain ⟨[], [], [], false⟩ hplain
    ⟨by simp, by simp, by intro id; simp [attachCount], by intro id _; simp [attachCount]⟩
  exact ⟨h.2.2.1, h.2.1⟩

/-- Witness for C10: a message repeating the same resolvable token three
times yields one attachment and one usage mark. -/
theorem single_message_dedup_witness :
    (∀ c ∈ [Component.plain (codes ":a: :a: :a:")], ∃ t, c = Component.plain t) ∧
      (∀ id, attachCount (substitutePass true false false (fun _ => true)
          demoResolveAB (some 5)
          [Component.plain (codes ":a: :a: :a:")]).chain id ≤ 1) ∧
      (substitutePass true false false (fun _ => true) demoResolveAB (some 5)
        [Component.plain (codes ":a: :a: :a:")]).marked.Nodup :=
  ⟨fun c hc => ⟨codes ":a: :a: :a:", by
      rw [List.mem_singleton] at hc
      rw [hc]⟩,
    single_message_dedup true false (fun _ => true) demoResolveAB (some 5)
      [Component.plain (codes ":a: :a: :a:")]
      (fun c hc => ⟨codes ":a: :a: :a:", by
        rw [List.mem_singleton] at hc
        rw [hc]⟩)⟩

/-! ## C8: Split Sender delivery loop (lines 613-629) -/

/-- `isinstance(segment, Plain) and not segment.text.strip()`. -/
def isSkippable (seg : Component) : Bool :=
  match seg with
  | .plain t => (trimCodes t).isEmpty
  | _ => false

/-- The send loop of `_send_split_messages`: whitespace-only text segments are
skipped; each other segment is attempted in order; a failed send (`sendOk`
false at that position) is logged and, in a streaming context, the loop
continues, otherwise it breaks.  Returns the attempted sends in order and the
logged failure positions. -/
def sendSplitLoop (isStreaming : Bool) (sendOk : Nat → Bool) :
    List Component → Nat → List (Nat × Component) × List Nat
  | [], _ => ([], [])
  | seg :: rest, idx =>
    if isSkippable seg then sendSplitLoop isStreaming sendOk rest (idx + 1)
    else if sendOk idx then
      let r := sendSplitLoop isStreaming sendOk rest (idx + 1)
      ((idx, seg) :: r.1, r.2)
    else if isStreaming then
      let r := sendSplitLoop isStreaming sendOk rest (idx + 1)
      ((idx, seg) :: r.1, idx :: r.2)
    else ([(idx, seg)], [idx])

/-- The segments numbered from a starting position. -/
def enumComps : Nat → List Component → List (Nat × Component)
  | _, [] => []
  | i, c :: rest => (i, c) :: enumComps (i + 1) rest

/-- The segments the loop does not skip. -/
def nonSkipped (i : Nat) (segs : List Component) : List (Nat × Component) :=
  (enumComps i segs).filter (fun p => !isSkippable p.2)

/-- Reference behavior of a fail-fast loop: everything up to and including the
first failing send. -/
def takeThroughFail (f : Nat → Bool) : List (Nat × Component) → List (Nat × Component)
  | [] => []
  | p :: rest => if f p.1 then p :: takeThroughFail f rest else [p]

theorem sendSplitLoop_streaming (sendOk : Nat → Bool) :
    ∀ (segs : List Component) (i : Nat),
      (sendSplitLoop true sendOk segs i).1 = nonSkipped i segs := by
  intro segs
  induction segs with
  | nil =>
      intro i
      rfl
  | cons seg rest ih =>
      intro i
      by_cases hskip : isSkippable seg
      · simp [sendSplitLoop, hskip, nonSkipped, enumComps, List.filter_cons, ih (i + 1)]
      · by_cases hok : sendOk i
        · simp [sendSplitLoop, hskip, hok, nonSkipped, enumComps, List.filter_cons,
            ih (i + 1)]
        · simp [sendSplitLoop, hskip, hok, nonSkipped, enumComps, List.filter_cons,
            ih (i + 1)]

theorem sendSplitLoop_nonStreaming (sendOk : Nat → Bool) :
    ∀ (segs : List Component) (i : Nat),
      (sendSplitLoop false sendOk segs i).1
        = takeThroughFail sendOk (nonSkipped i segs) := by
  intro segs
  induction segs with
  | nil =>
      intro i
      rfl
  | cons seg rest ih =>
      intro i
      by_cases hskip : isSkippable seg
      · simp [sendSplitLoop, hskip, nonSkipped, enumComps, List.filter_cons, ih (i + 1)]
      · by_cases hok : sendOk i
        · simp [sendSplitLoop, hskip, hok, nonSkipped, enumComps, List.filter_cons,
            takeThroughFail, ih (i + 1)]
        · simp [sendSplitLoop, hskip, hok, nonSkipped, enumComps, List.filter_cons,
            takeThroughFail]

theorem sendSplitLoop_log (isStreaming : Bool) (sendOk : Nat → Bool) :
    ∀ (segs : List Component) (i : Nat),
      (sendSplitLoop isStreaming sendOk segs i).2
        = ((sendSplitLoop isStreaming sendOk segs i).1.map Prod.fst).filter
            (fun k => !sendOk k) := by
  intro segs
  induction segs with
  | nil =>
      intro i
      rfl
  | cons seg rest ih =>
      intro i
      by_cases hskip : isSkippable seg
      · simp only [sendSplitLoop, hskip, if_pos]
        exact ih (i + 1)
      · by_cases hok : sendOk i
        · simp [sendSplitLoop, hskip, hok, List.filter_cons, ih (i + 1)]
        · by_cases hs : isStreaming
          · subst hs
            simp [sendSplitLoop, hskip, hok, List.filter_cons, ih (i + 1)]
          · have hs' : isStreaming = false := by
              cases isStreaming
              · rfl
              · exact absurd rfl hs
            subst hs'
            simp [sendSplitLoop, hskip, hok, List.filter_cons]

/-- C8: in the Split Sender delivery loop a failed send is logged; a streaming
context still attempts every remaining (non-skipped) segment in its original
order, while a non-streaming context attempts exactly the segments up to and
including the first failure and aborts the rest. -/
theorem split_sender_failure_policy :
    (∀ (sendOk : Nat → Bool) (segs : List Component) (i : Nat),
        (sendSplitLoop true sendOk segs i).1 = nonSkipped i segs) ∧
    (∀ (sendOk : Nat → Bool) (segs : List Component) (i : Nat),
        (sendSplitLoop false sendOk segs i).1
          = takeThroughFail sendOk (nonSkipped i segs)) ∧
    (∀ (isStreaming : Bool) (sendOk : Nat → Bool) (segs : List Component) (i : Nat),
        (sendSplitLoop isStreaming sendOk segs i).2
          = ((sendSplitLoop isStreaming sendOk segs i).1.map Prod.fst).filter
              (fun k => !sendOk k)) :=
  ⟨fun f segs i => sendSplitLoop_streaming f segs i,
    fun f segs i => sendSplitLoop_nonStreaming f segs i,
    fun b f segs i => sendSplitLoop_log b f segs i⟩

/-! ## C6/C7: shortcode lookup cache and resolver (storage_mixin.py) -/

/-- The `_shortcode_lookup_cache` dict: normalized shortcode to sticker id,
first binding wins (keys stay unique because insertions are guarded). -/
abbrev Lookup := List (List Nat × List Nat)

/-- One iteration of `_build_shortcode_lookup_cache` (lines 99-107): insert the
entry's normalized body, then each normalized tag, only when the key is
non-empty, the sticker id is truthy, and no mapping for the key exists yet. -/
def insertTag (sid : List Nat) (acc : Lookup) (tag : List Nat) : Lookup :=
  if ¬(normalizeCodes tag).isEmpty ∧ ¬sid.isEmpty ∧
      (tableGet acc (normalizeCodes tag)).isNone then
    acc ++ [(normalizeCodes tag, sid)]
  else acc

def insertMeta (lookup : Lookup) (m : Sticker) : Lookup :=
  m.tags.foldl (insertTag m.sticker_id)
    (if ¬(normalizeCodes m.body).isEmpty ∧ ¬m.sticker_id.isEmpty ∧
        (tableGet lookup (normalizeCodes m.body)).isNone then
      lookup ++ [(normalizeCodes m.body, m.sticker_id)]
    else lookup)

/-- `_build_shortcode_lookup_cache` over the listed catalog metas. -/
def buildShortcodeLookupCache (metas : List Sticker) : Lookup :=
  metas.foldl insertMeta []

/-- `lookup.pop(key, None)`. -/
def dictPop (lookup : Lookup) (k : List Nat) : Lookup :=
  lookup.eraseP (fun p => p.1 == k)

/-- `lookup[key] = value`: overwrite an existing binding, else append. -/
def dictSet (lookup : Lookup) (k v : List Nat) : Lookup :=
  if (tableGet lookup k).isSome then
    lookup.map (fun p => if p.1 == k then (k, v) else p)
  else lookup ++ [(k, v)]

/-- `_get_storage_sticker` (lines 128-137): fetch an entry by id; `usage`
records the ids whose usage statistics were bumped by the storage getter. -/
def getStorageSticker (catalog : List Sticker) (updateUsage : Bool)
    (usage : List (List Nat)) (sid : List Nat) :
    Option Sticker × List (List Nat) :=
  match catalog.find? (fun s => s.sticker_id == sid) with
  | some s => (some s, if updateUsage then usage ++ [sid] else usage)
  | none => (none, usage)

/-- The fallback loop over the `find_stickers(query=shortcode, limit=10)`
results (lines 173-186): match by normalized body or by a normalized tag; a
truthy matched id is written back into the lookup under the normalized key. -/
def fallbackScan (norm : List Nat) (lookup : Lookup) :
    List Sticker → Option Sticker × Lookup
  | [] => (none, lookup)
  | s :: rest =>
    if normalizeCodes s.body == norm then
      (some s,
        if s.sticker_id.isEmpty then lookup else dictSet lookup norm s.sticker_id)
    else if (s.tags.map normalizeCodes).contains norm then
      (some s,
        if s.sticker_id.isEmpty then lookup else dictSet lookup norm s.sticker_id)
    else fallbackScan norm lookup rest

/-- The observable outcome of `_find_sticker_by_shortcode`: the returned entry,
the `_shortcode_lookup_cache` attribute afterwards, and the usage-bump log. -/
structure ResolveOut where
  result : Option Sticker
  cache : Option Lookup
  usage : List (List Nat)
deriving DecidableEq

/-- `_find_sticker_by_shortcode` (lines 151-188).  `catalog` backs the storage
getter, `fallback` is the fuzzy `find_stickers` result list, `cache` the
current `_shortcode_lookup_cache` (`none` when not built yet). -/
def findStickerByShortcode (catalog fallback : List Sticker)
    (cache : Option Lookup) (usage : List (List Nat)) (shortcode : List Nat) :
    ResolveOut :=
  let norm := normalizeCodes shortcode
  if norm.isEmpty then ⟨none, cache, usage⟩
  else
    let lookup := match cache with
      | some l => l
      | none => buildShortcodeLookupCache catalog
    let cached := match tableGet lookup norm with
      | some sid => if sid.isEmpty then none else some sid
      | none => none
    match cached with
    | some sid =>
      match getStorageSticker catalog false usage sid with
      | (some s, usage1) => ⟨some s, some lookup, usage1⟩
      | (none, usage1) =>
        let fb := fallbackScan norm (dictPop lookup norm) fallback
        ⟨fb.1, some fb.2, usage1⟩
    | none =>
      let fb := fallbackScan norm lookup fallback
      ⟨fb.1, some fb.2, usage⟩

theorem getStorageSticker_no_bump (catalog : List Sticker)
    (usage : List (List Nat)) (sid : List Nat) :
    (getStorageSticker catalog false usage sid).2 = usage := by
  unfold getStorageSticker
  split
  · rfl
  · rfl

theorem tableGet_append_right (l l2 : Lookup) (k v : List Nat)
    (h : tableGet l k = some v) : tableGet (l ++ l2) k = some v := by
  induction l with
  | nil => simp [tableGet] at h
  | cons p rest ih =>
      by_cases hp : p.1 == k
      · simp [tableGet, hp] at h ⊢
        exact h
      · simp only [List.cons_append]
        simp only [tableGet, List.find?_cons, hp] at h ⊢
        exact ih h

theorem tableGet_map_set (l : Lookup) (k v : List Nat)
    (h : (tableGet l k).isSome) :
    tableGet (l.map (fun p => if p.1 == k then (k, v) else p)) k = some v := by
  induction l with
  | nil => simp [tableGet] at h
  | cons p rest ih =>
      by_cases hp : (p.1 == k) = true
      · simp only [List.map_cons]
        rw [if_pos hp, tableGet, List.find?_cons,
          (by simp : ((k, v).1 == k) = true)]
        rfl
      · have hpf : (p.1 == k) = false := by rwa [Bool.not_eq_true] at hp
        have h2 : (tableGet rest k).isSome := by
          rw [tableGet, List.find?_cons, hpf] at h
          exact h
        simp only [List.map_cons]
        rw [if_neg hp, tableGet, List.find?_cons, hpf]
        exact ih h2

theorem tableGet_append_kv (k v : List Nat) :
    ∀ l : Lookup, tableGet l k = none → tableGet (l ++ [(k, v)]) k = some v := by
  intro l
  induction l with
  | nil =>
      intro _
      simp [tableGet]
  | cons p rest ih =>
      intro h
      by_cases hp : (p.1 == k) = true
      · rw [tableGet, List.find?_cons, hp] at h
        exact absurd h (by simp)
      · have hpf : (p.1 == k) = false := by rwa [Bool.not_eq_true] at hp
        rw [tableGet, List.find?_cons, hpf] at h
        rw [List.cons_append, tableGet, List.find?_cons, hpf]
        exact ih h

theorem tableGet_dictSet (l : Lookup) (k v : List Nat) :
    tableGet (dictSet l k v) k = some v := by
  by_cases h : (tableGet l k).isSome
  · rw [dictSet, if_pos h]
    exact tableGet_map_set l k v h
  · rw [dictSet, if_neg h]
    exact tableGet_append_kv k v l (Option.not_isSome_iff_eq_none.mp h)

theorem fallbackScan_writeback (norm : List Nat) :
    ∀ (fb : List Sticker) (l : Lookup) (s : Sticker),
      (fallbackScan norm l fb).1 = some s → s.sticker_id.isEmpty = false →
      tableGet (fallbackScan norm l fb).2 norm = some s.sticker_id := by
  intro fb
  induction fb with
  | nil =>
      intro l s h _
      simp [fallbackScan] at h
  | cons t rest ih =>
      intro l s h hid
      rw [fallbackScan] at h ⊢
      by_cases hb : (normalizeCodes t.body == norm) = true
      · rw [if_pos hb] at h ⊢
        have hts : t = s := by simpa using h
        subst hts
        rw [if_neg (by rw [hid]; exact Bool.false_ne_true)]
        exact tableGet_dictSet l norm t.sticker_id
      · rw [if_neg hb] at h ⊢
        by_cases htag : ((t.tags.map normalizeCodes).contains norm) = true
        · rw [if_pos htag] at h ⊢
          have hts : t = s := by simpa using h
          subst hts
          rw [if_neg (by rw [hid]; exact Bool.false_ne_true)]
          exact tableGet_dictSet l norm t.sticker_id
        · rw [if_neg htag] at h ⊢
          exact ih l s h hid

theorem findSticker_hit (catalog fallback : List Sticker) (lookup : Lookup)
    (usage : List (List Nat)) (shortcode sid : List Nat) (s : Sticker)
    (hne : (normalizeCodes shortcode).isEmpty = false)
    (hget : tableGet lookup (normalizeCodes shortcode) = some sid)
    (hsid : sid.isEmpty = false)
    (hfind : catalog.find? (fun t => t.sticker_id == sid) = some s) :
    findStickerByShortcode catalog fallback (some lookup) usage shortcode
      = ⟨some s, some lookup, usage⟩ := by
  simp only [findStickerByShortcode, getStorageSticker, hne, hget, hsid, hfind,
    Bool.false_eq_true, if_false]

theorem findSticker_stale (catalog fallback : List Sticker) (lookup : Lookup)
    (usage : List (List Nat)) (shortcode sid : List Nat)
    (hne : (normalizeCodes shortcode).isEmpty = false)
    (hget : tableGet lookup (normalizeCodes shortcode) = some sid)
    (hsid : sid.isEmpty = false)
    (hfind : catalog.find? (fun t => t.sticker_id == sid) = none) :
    findStickerByShortcode catalog fallback (some lookup) usage shortcode
      = ⟨(fallbackScan (normalizeCodes shortcode)
            (dictPop lookup (normalizeCodes shortcode)) fallback).1,
         some (fallbackScan (normalizeCodes shortcode)
            (dictPop lookup (normalizeCodes shortcode)) fallback).2,
         usage⟩ := by
  simp only [findStickerByShortcode, getStorageSticker, hne, hget, hsid, hfind,
    Bool.false_eq_true, if_false]

theorem findSticker_miss (catalog fallback : List Sticker) (lookup : Lookup)
    (usage : List (List Nat)) (shortcode : List Nat)
    (hne : (normalizeCodes shortcode).isEmpty = false)
    (hget : tableGet lookup (normalizeCodes shortcode) = none) :
    findStickerByShortcode catalog fallback (some lookup) usage shortcode
      = ⟨(fallbackScan (normalizeCodes shortcode) lookup fallback).1,
         some (fallbackScan (normalizeCodes shortcode) lookup fallback).2,
         usage⟩ := by
  simp only [findStickerByShortcode, hne, hget, Bool.false_eq_true, if_false]

theorem findSticker_no_usage_bump (catalog fallback : List Sticker)
    (cache : Option Lookup) (usage : List (List Nat)) (shortcode : List Nat) :
    (findStickerByShortcode catalog fallback cache usage shortcode).usage
      = usage := by
  simp only [findStickerByShortcode]
  split
  · rfl
  · split
    · split
      · next s usage1 heq =>
          have h2 := congrArg Prod.snd heq
          rw [getStorageSticker_no_bump] at h2
          exact h2.symm
      · next usage1 heq =>
          have h2 := congrArg Prod.snd heq
          rw [getStorageSticker_no_bump] at h2
          exact h2.symm
    · rfl

/-- Witness fixtures for the resolver. -/
def wHey : Sticker := ⟨codes "id-a", codes "Hey", [codes "wave"]⟩

/-- A one-entry lookup cache mapping the normalized body to its id. -/
def wLook : Lookup := [(codes "hey", codes "id-a")]

/-- C6: behavior of _find_sticker_by_shortcode.  A lookup-cache hit fetches
the entry by its id with the cache and the usage statistics untouched; a
cached id that no longer resolves is popped and the bounded fuzzy fallback is
consulted; a plain cache miss consults the fallback directly; a successful
fallback match with a truthy id writes the normalized-key-to-id binding back
into the cache; if the fallback also fails the result is None; and no path of
the resolver ever bumps usage statistics. -/
theorem shortcode_resolver_behavior (catalog fallback : List Sticker)
    (lookup : Lookup) (usage : List (List Nat)) (shortcode : List Nat) :
    (∀ sid s, (normalizeCodes shortcode).isEmpty = false →
        tableGet lookup (normalizeCodes shortcode) = some sid →
        sid.isEmpty = false →
        catalog.find? (fun t => t.sticker_id == sid) = some s →
        findStickerByShortcode catalog fallback (some lookup) usage shortcode
          = ⟨some s, some lookup, usage⟩) ∧
    (∀ sid, (normalizeCodes shortcode).isEmpty = false →
        tableGet lookup (normalizeCodes shortcode) = some sid →
        sid.isEmpty = false →
        catalog.find? (fun t => t.sticker_id == sid) = none →
        findStickerByShortcode catalog fallback (some lookup) usage shortcode
          = ⟨(fallbackScan (normalizeCodes shortcode)
                (dictPop lookup (normalizeCodes shortcode)) fallback).1,
             some (fallbackScan (normalizeCodes shortcode)
                (dictPop lookup (normalizeCodes shortcode)) fallback).2,
             usage⟩) ∧
    ((normalizeCodes shortcode).isEmpty = false →
        tableGet lookup (normalizeCodes shortcode) = none →
        findStickerByShortcode catalog fallback (some lookup) usage shortcode
          = ⟨(fallbackScan (normalizeCodes shortcode) lookup fallback).1,
             some (fallbackScan (normalizeCodes shortcode) lookup fallback).2,
             usage⟩) ∧
    (∀ (l : Lookup) (s : Sticker),
        (fallbackScan (normalizeCodes shortcode) l fallback).1 = some s →
        s.sticker_id.isEmpty = false →
        tableGet (fallbackScan (normalizeCodes shortcode) l fallback).2
            (normalizeCodes shortcode) = some s.sticker_id) ∧
    ((normalizeCodes shortcode).isEmpty = false →
        tableGet lookup (normalizeCodes shortcode) = none →
        (fallbackScan (normalizeCodes shortcode) lookup fallback).1 = none →
        (findStickerByShortcode catalog fallback (some lookup) usage
            shortcode).result = none) ∧
    ((findStickerByShortcode catalog fallback (some lookup) usage
        shortcode).usage = usage) := by
  refine ⟨fun sid s hne hget hsid hfind =>
      findSticker_hit catalog fallback lookup usage shortcode sid s hne hget
        hsid hfind,
    fun sid hne hget hsid hfind =>
      findSticker_stale catalog fallback lookup usage shortcode sid hne hget
        hsid hfind,
    fun hne hget =>
      findSticker_miss catalog fallback lookup usage shortcode hne hget,
    fun l s h hid =>
      fallbackScan_writeback (normalizeCodes shortcode) fallback l s h hid,
    fun hne hget hfb => ?_,
    findSticker_no_usage_bump catalog fallback (some lookup) usage shortcode⟩
  rw [findSticker_miss catalog fallback lookup usage shortcode hne hget]
  exact hfb

/-- C6 witness: a concrete cache hit returns the catalog entry with the cache
and the usage log unchanged. -/
theorem shortcode_resolver_behavior_witness :
    findStickerByShortcode [wHey] [] (some wLook) [] (codes " Hey ")
      = ⟨some wHey, some wLook, []⟩ :=
  (shortcode_resolver_behavior [wHey] [] wLook [] (codes " Hey ")).1
    (codes "id-a") wHey (by decide) (by decide) (by decide) (by decide)

/-! ## C7: key invariant and first-writer-wins of the lookup cache -/

/-- A well-formed cache key: non-empty, lower-cased, and trimmed (no leading
or trailing whitespace). -/
def goodKey (k : List Nat) : Prop :=
  k ≠ [] ∧ (∀ c ∈ k, lowerCode c = c) ∧
  (∀ c r, k = c :: r → isSpaceCode c = false) ∧
  (∀ c r, k.reverse = c :: r → isSpaceCode c = false)

theorem lowerCode_idem (c : Nat) : lowerCode (lowerCode c) = lowerCode c := by
  unfold lowerCode
  by_cases h : 65 ≤ c ∧ c ≤ 90
  · rw [if_pos h, if_neg (by omega)]
  · rw [if_neg h, if_neg h]

theorem isSpaceCode_lowerCode (c : Nat) :
    isSpaceCode (lowerCode c) = isSpaceCode c := by
  unfold lowerCode
  by_cases h : 65 ≤ c ∧ c ≤ 90
  · rw [if_pos h]
    have h1 : isSpaceCode (c + 32) = false := by
      simp only [isSpaceCode, Bool.or_eq_false_iff, decide_eq_false_iff_not]
      omega
    have h2 : isSpaceCode c = false := by
      simp only [isSpaceCode, Bool.or_eq_false_iff, decide_eq_false_iff_not]
      omega
    rw [h1, h2]
  · rw [if_neg h]

theorem dropWhile_prefix_decomp (p : Nat → Bool) :
    ∀ l : List Nat, ∃ w, l = w ++ l.dropWhile p := by
  intro l
  induction l with
  | nil => exact ⟨[], rfl⟩
  | cons a l ih =>
      by_cases ha : p a = true
      · obtain ⟨w, hw⟩ := ih
        refine ⟨a :: w, ?_⟩
        rw [List.dropWhile_cons, if_pos ha, List.cons_append, ← hw]
      · exact ⟨[], by rw [List.dropWhile_cons, if_neg ha, List.nil_append]⟩

theorem trimCodes_head_not_space (s : List Nat) (c : Nat) (r : List Nat)
    (h : trimCodes s = c :: r) : isSpaceCode c = false := by
  obtain ⟨w, hw⟩ :=
    dropWhile_prefix_decomp isSpaceCode (s.dropWhile isSpaceCode).reverse
  have h2 : s.dropWhile isSpaceCode = trimCodes s ++ w.reverse := by
    have h3 := congrArg List.reverse hw
    rw [List.reverse_reverse, List.reverse_append] at h3
    exact h3
  rw [h, List.cons_append] at h2
  exact dropWhile_head_false h2

theorem trimCodes_last_not_space (s : List Nat) (c : Nat) (r : List Nat)
    (h : (trimCodes s).reverse = c :: r) : isSpaceCode c = false := by
  rw [trimCodes, List.reverse_reverse] at h
  exact dropWhile_head_false h

theorem normalizeCodes_goodKey (s : List Nat) (h : normalizeCodes s ≠ []) :
    goodKey (normalizeCodes s) := by
  refine ⟨h, ?_, ?_, ?_⟩
  · intro c hc
    rw [normalizeCodes, List.mem_map] at hc
    obtain ⟨c', _, rfl⟩ := hc
    exact lowerCode_idem c'
  · intro c r hcr
    rw [normalizeCodes] at hcr
    cases ht : trimCodes s with
    | nil => rw [ht] at hcr; simp at hcr
    | cons c' r' =>
        rw [ht, List.map_cons] at hcr
        have hc : c = lowerCode c' := (List.cons.inj hcr).1.symm
        rw [hc, isSpaceCode_lowerCode]
        exact trimCodes_head_not_space s c' r' ht
  · intro c r hcr
    rw [normalizeCodes, ← List.map_reverse] at hcr
    cases ht : (trimCodes s).reverse with
    | nil => rw [ht] at hcr; simp at hcr
    | cons c' r' =>
        rw [ht, List.map_cons] at hcr
        have hc : c = lowerCode c' := (List.cons.inj hcr).1.symm
        rw [hc, isSpaceCode_lowerCode]
        exact trimCodes_last_not_space s c' r' ht

theorem insertTag_mem (sid : List Nat) (acc : Lookup) (tag k v : List Nat)
    (h : (k, v) ∈ insertTag sid acc tag) :
    (k, v) ∈ acc ∨ (k = normalizeCodes tag ∧ k ≠ []) := by
  unfold insertTag at h
  split at h
  · next hcond =>
      rcases List.mem_append.mp h with h1 | h2
      · exact Or.inl h1
      · have he := List.mem_singleton.mp h2
        have hk : k = normalizeCodes tag := congrArg Prod.fst he
        exact Or.inr ⟨hk, fun h0 => hcond.1 (by rw [← hk, h0]; exact List.isEmpty_nil)⟩
  · exact Or.inl h

theorem tagFold_mem (sid : List Nat) :
    ∀ (tags : List (List Nat)) (acc : Lookup) (k v : List Nat),
      (k, v) ∈ tags.foldl (insertTag sid) acc →
      (k, v) ∈ acc ∨ ∃ src, k = normalizeCodes src ∧ k ≠ [] := by
  intro tags
  induction tags with
  | nil =>
      intro acc k v h
      exact Or.inl h
  | cons t rest ih =>
      intro acc k v h
      rw [List.foldl_cons] at h
      rcases ih (insertTag sid acc t) k v h with hin | hshape
      · rcases insertTag_mem sid acc t k v hin with h1 | h2
        · exact Or.inl h1
        · exact Or.inr ⟨t, h2⟩
      · exact Or.inr hshape

theorem insertMeta_mem (lookup : Lookup) (m : Sticker) (k v : List Nat)
    (h : (k, v) ∈ insertMeta lookup m) :
    (k, v) ∈ lookup ∨ ∃ src, k = normalizeCodes src ∧ k ≠ [] := by
  unfold insertMeta at h
  rcases tagFold_mem m.sticker_id m.tags _ k v h with hin | hshape
  · split at hin
    · next hcond =>
        rcases List.mem_append.mp hin with h1 | h2
        · exact Or.inl h1
        · have he := List.mem_singleton.mp h2
          have hk : k = normalizeCodes m.body := congrArg Prod.fst he
          exact Or.inr ⟨m.body, hk, fun h0 => hcond.1 (by rw [← hk, h0]; exact List.isEmpty_nil)⟩
    · exact Or.inl hin
  · exact Or.inr hshape

theorem buildFold_mem :
    ∀ (metas : List Sticker) (init : Lookup) (k v : List Nat),
      (k, v) ∈ metas.foldl insertMeta init →
      (k, v) ∈ init ∨ ∃ src, k = normalizeCodes src ∧ k ≠ [] := by
  intro metas
  induction metas with
  | nil =>
      intro init k v h
      exact Or.inl h
  | cons m rest ih =>
      intro init k v h
      rw [List.foldl_cons] at h
      rcases ih (insertMeta init m) k v h with hin | hs
      · rcases insertMeta_mem init m k v hin with h1 | h2
        · exact Or.inl h1
        · exact Or.inr h2
      · exact Or.inr hs

theorem insertTag_mono (sid : List Nat) (acc : Lookup) (tag k v : List Nat)
    (h : tableGet acc k = some v) :
    tableGet (insertTag sid acc tag) k = some v := by
  unfold insertTag
  split
  · exact tableGet_append_right acc _ k v h
  · exact h

theorem tagFold_mono (sid : List Nat) :
    ∀ (tags : List (List Nat)) (acc : Lookup) (k v : List Nat),
      tableGet acc k = some v →
      tableGet (tags.foldl (insertTag sid) acc) k = some v := by
  intro tags
  induction tags with
  | nil =>
      intro acc k v h
      exact h
  | cons t rest ih =>
      intro acc k v h
      rw [List.foldl_cons]
      exact ih _ k v (insertTag_mono sid acc t k v h)

theorem insertMeta_mono (lookup : Lookup) (m : Sticker) (k v : List Nat)
    (h : tableGet lookup k = some v) :
    tableGet (insertMeta lookup m) k = some v := by
  unfold insertMeta
  refine tagFold_mono m.sticker_id m.tags _ k v ?_
  split
  · exact tableGet_append_right lookup _ k v h
  · exact h

theorem buildFold_mono :
    ∀ (metas : List Sticker) (init : Lookup) (k v : List Nat),
      tableGet init k = some v →
      tableGet (metas.foldl insertMeta init) k = some v := by
  intro metas
  induction metas with
  | nil =>
      intro init k v h
      exact h
  | cons m rest ih =>
      intro init k v h
      rw [List.foldl_cons]
      exact ih _ k v (insertMeta_mono init m k v h)

theorem dictSet_goodKeys (l : Lookup) (nk v : List Nat)
    (hnk : goodKey nk) (hl : ∀ k w, (k, w) ∈ l → goodKey k) :
    ∀ k w, (k, w) ∈ dictSet l nk v → goodKey k := by
  intro k w h
  unfold dictSet at h
  split at h
  · rcases List.mem_map.mp h with ⟨p, hp, he⟩
    by_cases hpk : (p.1 == nk) = true
    · rw [if_pos hpk] at he
      have hk : nk = k := congrArg Prod.fst he
      rw [← hk]
      exact hnk
    · rw [if_neg hpk] at he
      rw [he] at hp
      exact hl k w hp
  · rcases List.mem_append.mp h with h1 | h2
    · exact hl k w h1
    · have he := List.mem_singleton.mp h2
      have hk : k = nk := congrArg Prod.fst he
      rw [hk]
      exact hnk

/-- Catalog fixtures for the cache witness: two entries sharing the body key
(up to normalization), the first also carrying an alias. -/
def wm1 : Sticker := ⟨codes "id-1", codes " Hey ", [codes "YO"]⟩

/-- The later-scanned entry whose body collides with wm1's. -/
def wm2 : Sticker := ⟨codes "id-2", codes "hey", []⟩

/-- C7: every key of the rebuilt shortcode lookup cache is a non-empty,
trimmed, lower-cased string (in particular never empty or whitespace-only);
the rebuild is first-writer-wins: any mapping already present when further
catalog entries are scanned survives the rest of the scan unchanged; and the
resolver's fallback writeback only adds normalized non-empty keys, preserving
the key invariant. -/
theorem lookup_cache_key_invariant (metas : List Sticker) :
    (∀ k v, (k, v) ∈ buildShortcodeLookupCache metas → goodKey k) ∧
    (∀ (init : Lookup) (k v : List Nat),
        tableGet init k = some v →
        tableGet (metas.foldl insertMeta init) k = some v) ∧
    (∀ (l : Lookup) (sc v : List Nat),
        normalizeCodes sc ≠ [] →
        (∀ k w, (k, w) ∈ l → goodKey k) →
        ∀ k w, (k, w) ∈ dictSet l (normalizeCodes sc) v → goodKey k) := by
  refine ⟨?_, ?_, ?_⟩
  · intro k v h
    rcases buildFold_mem metas [] k v h with h0 | ⟨src, hk, hne⟩
    · exact absurd h0 (List.not_mem_nil _)
    · rw [hk]
      exact normalizeCodes_goodKey src (hk ▸ hne)
  · intro init k v h
    exact buildFold_mono metas init k v h
  · intro l sc v hne hl k w h
    exact dictSet_goodKeys l (normalizeCodes sc) v
      (normalizeCodes_goodKey sc hne) hl k w h

/-- C7 witness: the key inserted for wm1's body is well-formed, and a binding
present before the scan survives scanning both entries. -/
theorem lookup_cache_key_invariant_witness :
    goodKey (codes "hey") ∧
    tableGet ([wm1, wm2].foldl insertMeta [(codes "zz", codes "id-0")])
        (codes "zz")
      = some (codes "id-0") :=
  ⟨(lookup_cache_key_invariant [wm1, wm2]).1 (codes "hey") (codes "id-1")
      (by decide),
    (lookup_cache_key_invariant [wm1, wm2]).2.1 [(codes "zz", codes "id-0")]
      (codes "zz") (codes "id-0") (by decide)⟩

/-! ## C9: serialization of the auto-sync tasks (main.py lines 221-228)

Two long-running tasks (the startup pass and the periodic loop) invoke
`_sync_all_platform_stickers_once`.  The body first runs
`if self._auto_sync_lock is None: self._auto_sync_lock = asyncio.Lock()` -
one atomic scheduler step, since the check and the assignment contain no
await - and then holds the shared lock for the whole per-platform sync loop.
The model gives each task a program counter and treats lock creation,
acquisition and release as the only steps that touch the shared state. -/

/-- Program counter of one task through `_sync_all_platform_stickers_once`. -/
inductive SyncPC where
  | start
  | ready
  | syncing
  | finished
deriving DecidableEq

/-- Shared state of the two scheduler tasks. -/
structure SyncSys where
  pc1 : SyncPC
  pc2 : SyncPC
  lockCreated : Bool
  holder : Option Nat
deriving DecidableEq

/-- Both tasks about to enter `_sync_all_platform_stickers_once`. -/
def syncInit : SyncSys := ⟨SyncPC.start, SyncPC.start, false, none⟩

/-- One atomic scheduler step: lazy lock creation (no await between the
None-check and the assignment), lock acquisition (only when no task holds
it), or release at the end of the `async with` block. -/
inductive SyncStep : SyncSys → SyncSys → Prop where
  | create1 (s : SyncSys) (h : s.pc1 = SyncPC.start) :
      SyncStep s ⟨SyncPC.ready, s.pc2, true, s.holder⟩
  | create2 (s : SyncSys) (h : s.pc2 = SyncPC.start) :
      SyncStep s ⟨s.pc1, SyncPC.ready, true, s.holder⟩
  | acquire1 (s : SyncSys) (h : s.pc1 = SyncPC.ready)
      (hfree : s.holder = none) :
      SyncStep s ⟨SyncPC.syncing, s.pc2, s.lockCreated, some 0⟩
  | acquire2 (s : SyncSys) (h : s.pc2 = SyncPC.ready)
      (hfree : s.holder = none) :
      SyncStep s ⟨s.pc1, SyncPC.syncing, s.lockCreated, some 1⟩
  | release1 (s : SyncSys) (h : s.pc1 = SyncPC.syncing) :
      SyncStep s ⟨SyncPC.finished, s.pc2, s.lockCreated, none⟩
  | release2 (s : SyncSys) (h : s.pc2 = SyncPC.syncing) :
      SyncStep s ⟨s.pc1, SyncPC.finished, s.lockCreated, none⟩

/-- States the two-task system can reach from the initial state. -/
def SyncReachable (s : SyncSys) : Prop :=
  Relation.ReflTransGen SyncStep syncInit s

/-- A task is inside the sync loop only while it holds the lock. -/
def syncInv (s : SyncSys) : Prop :=
  (s.pc1 = SyncPC.syncing → s.holder = some 0) ∧
  (s.pc2 = SyncPC.syncing → s.holder = some 1)

theorem syncInv_init : syncInv syncInit :=
  ⟨fun h => absurd h (by decide), fun h => absurd h (by decide)⟩

theorem syncInv_step (s t : SyncSys) (hs : syncInv s) (h : SyncStep s t) :
    syncInv t := by
  cases h with
  | create1 h =>
      exact ⟨fun hc => SyncPC.noConfusion hc, fun hc => hs.2 hc⟩
  | create2 h =>
      exact ⟨fun hc => hs.1 hc, fun hc => SyncPC.noConfusion hc⟩
  | acquire1 h hfree =>
      exact ⟨fun hc => rfl, fun hc => absurd (hfree ▸ hs.2 hc) (by decide)⟩
  | acquire2 h hfree =>
      exact ⟨fun hc => absurd (hfree ▸ hs.1 hc) (by decide), fun hc => rfl⟩
  | release1 h =>
      exact ⟨fun hc => SyncPC.noConfusion hc,
        fun hc => absurd ((hs.1 h).symm.trans (hs.2 hc)) (by decide)⟩
  | release2 h =>
      exact ⟨fun hc => absurd ((hs.2 h).symm.trans (hs.1 hc)) (by decide),
        fun hc => SyncPC.noConfusion hc⟩

theorem syncInv_reachable (s : SyncSys) (h : SyncReachable s) : syncInv s := by
  unfold SyncReachable at h
  induction h with
  | refl => exact syncInv_init
  | tail hab hbc ih => exact syncInv_step _ _ ih hbc

/-- C9: no reachable state of the two long-running scheduler tasks has both
tasks inside the catalog-mutating per-platform sync loop: every invocation
of the sync-all operation acquires the one shared lock first, so the sync
work is serialized. -/
theorem sync_lock_serialization (s : SyncSys) (h : SyncReachable s) :
    ¬(s.pc1 = SyncPC.syncing ∧ s.pc2 = SyncPC.syncing) := by
  intro hc
  have hinv := syncInv_reachable s h
  exact absurd ((hinv.1 hc.1).symm.trans (hinv.2 hc.2)) (by decide)

/-- A state with task 1 syncing and task 2 waiting, reached by three steps. -/
def syncDemoState : SyncSys := ⟨SyncPC.syncing, SyncPC.ready, true, some 0⟩

/-- C9 witness: the mutual-exclusion theorem applied to a concrete reachable
state. -/
theorem sync_lock_serialization_witness :
    ¬(syncDemoState.pc1 = SyncPC.syncing ∧
      syncDemoState.pc2 = SyncPC.syncing) :=
  sync_lock_serialization syncDemoState
    (Relation.ReflTransGen.tail
      (Relation.ReflTransGen.tail
        (Relation.ReflTransGen.tail Relation.ReflTransGen.refl
          (SyncStep.create1 syncInit rfl))
        (SyncStep.create2 ⟨SyncPC.ready, SyncPC.start, true, none⟩ rfl))
      (SyncStep.acquire1 ⟨SyncPC.ready, SyncPC.ready, true, none⟩ rfl rfl))

end MS
